import Mathlib

/-!
# SimpliPy: a verified shallow embedding of the small-step interpreter

This file embeds the core of the SimpliPy interpreter backend
(`simplipy/parse`, `simplipy/ctf`, `simplipy/semantics`) in Lean 4 and
proves or refutes the frozen specification claims about it.

Modelling conventions:
* Python dicts become association lists (`List (κ × α)`); insertion of an
  existing key updates in place, a fresh key is appended at the end, which
  mirrors Python insertion-order semantics (`bindKey`).
* Python exceptions become `Except Err`; the stepper returns the state as
  it stands when an exception escapes (`StepRes.err`), because the Python
  `State` object keeps all mutations made before the raise.
* IEEE floats are abstracted as exact rationals (`Value.float : Rat`);
  object identity (`is`) is modelled only for the singleton values
  `None`/`True`/`False` and is an explicit `Err.notModeled` elsewhere.
* `while current in edges` loops become fuel-based recursion; the fuel
  supplied is proven sufficient on all states where the Python loop
  terminates, so the functions agree with the source there.
-/

namespace SimpliPy

/-! ## Association-list primitives (Python `dict` and `list` operations) -/

/-- Lookup in an insertion-ordered map; first (unique) matching key wins. -/
def lookupKey {κ α : Type} [DecidableEq κ] : List (κ × α) → κ → Option α
  | [], _ => Option.none
  | (k, v) :: rest, x => if k = x then some v else lookupKey rest x

/-- Python `d[k] = v`: update the existing entry in place, else append. -/
def bindKey {κ α : Type} [DecidableEq κ] : List (κ × α) → κ → α → List (κ × α)
  | [], k, v => [(k, v)]
  | (k0, v0) :: rest, k, v =>
      if k0 = k then (k0, v) :: rest else (k0, v0) :: bindKey rest k v

/-- Python `k in d`. -/
def hasKey {κ α : Type} [DecidableEq κ] (m : List (κ × α)) (k : κ) : Bool :=
  (lookupKey m k).isSome

/-! ## Values (`simplipy/semantics/types.py`)

`Value` is the tagged union of the runtime values the interpreter
manipulates: Python scalars, `Closure(lineno, formals, par_env_id)` and
the `Bottom` sentinel for declared-but-unassigned locals. -/

inductive Value where
  | int (n : Int)
  | bool (b : Bool)
  | str (s : String)
  | float (q : Rat)
  | pynone
  | closure (lineno : Nat) (formals : List String) (parEnvId : Nat)
  | bottom
deriving DecidableEq, Repr

/-- Error kinds: each constructor corresponds to one Python exception site. -/
inductive Err where
  | lookupFailure (v : String)   -- `LookupError` raised at the end of `lookup_env`
  | scopeConflict (v : String)   -- `ValueError`: both nonlocal and global
  | keyError                     -- Python `KeyError` (dict miss)
  | indexError                   -- Python `IndexError` (list miss)
  | notCallable (v : String)     -- `ValueError` in the CallAssign branch
  | arityError (v : String)      -- `TypeError`: wrong number of arguments
  | typeError                    -- `TypeError` from an operator
  | zeroDivision                 -- `ZeroDivisionError`
  | valueError                   -- `ValueError`: unsupported operator
  | attributeError               -- Python `AttributeError` (duck-typing miss)
  | hitTopLevel                  -- `SyntaxError` in `encl`
  | emptyStack                   -- `IndexError` on an empty continuation
  | notModeled                   -- behaviour outside this embedding (object identity)
  | outOfFuel                    -- fuel exhaustion; unreachable with the supplied fuel
deriving DecidableEq, Repr

instance {ε α : Type} [DecidableEq ε] [DecidableEq α] : DecidableEq (Except ε α) := by
  intro a b
  cases a <;> cases b <;> first
    | (apply isFalse; intro h; exact Except.noConfusion h)
    | (rename_i x y
       exact if h : x = y then isTrue (by rw [h]) else isFalse (by intro hc; cases hc; exact h rfl))

/-! ## Python operator semantics on `Value`

These helpers spell out what each `ast` operator branch of
`State.eval_expr` computes on the value types above. Numeric coercion
follows Python: `bool` counts as an integer, `int` and `float` mix, and
`float` results are exact rationals. -/

/-- Numeric view used by arithmetic: `bool` and `int` are integers. -/
def Value.asInt : Value → Option Int
  | .int n => some n
  | .bool b => some (if b then 1 else 0)
  | _ => Option.none

/-- Numeric view including floats, as exact rationals. -/
def Value.asNum : Value → Option Rat
  | .int n => some (n : Rat)
  | .bool b => some (if b then 1 else 0)
  | .float q => some q
  | _ => Option.none

/-- Python truthiness (`__bool__`): zero/empty/None are falsy, every
object (including `Closure` and `Bottom` instances) is truthy. -/
def truthy : Value → Bool
  | .int n => n != 0
  | .bool b => b
  | .str s => s != ""
  | .float q => q != 0
  | .pynone => false
  | .closure _ _ _ => true
  | .bottom => true

/-- Matches an initial segment of a character list. -/
def leadMatch : List Char → List Char → Bool
  | [], _ => true
  | _ :: _, [] => false
  | a :: as, b :: bs => a == b && leadMatch as bs

/-- Substring test on character lists (Python `needle in haystack`). -/
def containsSub (needle : List Char) : List Char → Bool
  | [] => leadMatch needle []
  | c :: rest => leadMatch needle (c :: rest) || containsSub needle rest

/-- Python `repeat`-multiplication of a string by an integer. -/
def strRepeat (s : String) (n : Int) : String :=
  String.join (List.replicate n.toNat s)

/-! Bitwise operations on unbounded integers, Python two's-complement
semantics, expressed through the `Nat` bitwise primitives. -/

/-- Two's-complement AND on unbounded integers. -/
def intAnd (a b : Int) : Int :=
  if a ≥ 0 then
    if b ≥ 0 then Int.ofNat (Nat.land a.toNat b.toNat)
    else Int.ofNat (a.toNat - Nat.land a.toNat (-b - 1).toNat)
  else
    if b ≥ 0 then Int.ofNat (b.toNat - Nat.land b.toNat (-a - 1).toNat)
    else -(Int.ofNat (Nat.lor (-a - 1).toNat (-b - 1).toNat)) - 1

/-- Two's-complement OR on unbounded integers. -/
def intOr (a b : Int) : Int :=
  if a ≥ 0 then
    if b ≥ 0 then Int.ofNat (Nat.lor a.toNat b.toNat)
    else -(Int.ofNat ((-b - 1).toNat - Nat.land (-b - 1).toNat a.toNat)) - 1
  else
    if b ≥ 0 then -(Int.ofNat ((-a - 1).toNat - Nat.land (-a - 1).toNat b.toNat)) - 1
    else -(Int.ofNat (Nat.land (-a - 1).toNat (-b - 1).toNat)) - 1

/-- Two's-complement XOR on unbounded integers. -/
def intXor (a b : Int) : Int :=
  if a ≥ 0 then
    if b ≥ 0 then Int.ofNat (Nat.xor a.toNat b.toNat)
    else -(Int.ofNat (Nat.xor a.toNat (-b - 1).toNat)) - 1
  else
    if b ≥ 0 then -(Int.ofNat (Nat.xor (-a - 1).toNat b.toNat)) - 1
    else Int.ofNat (Nat.xor (-a - 1).toNat (-b - 1).toNat)

/-! ## The `ast.BinOp` / `ast.UnaryOp` / `ast.Compare` operator branches -/

inductive UnOp where
  | usub | uadd | unot | invert
deriving DecidableEq, Repr

inductive BinOp where
  | add | sub | mult | div | floordiv | mod | pow
  | lshift | rshift | bitor | bitxor | bitand | matmult
deriving DecidableEq, Repr

inductive CmpOp where
  | eq | ne | lt | le | gt | ge | isOp | isNotOp | inOp | notInOp
deriving DecidableEq, Repr

/-- Python `left + right` on interpreter values. -/
def addV (a b : Value) : Except Err Value :=
  match a.asInt, b.asInt with
  | some x, some y => .ok (.int (x + y))
  | _, _ =>
    match a.asNum, b.asNum with
    | some x, some y => .ok (.float (x + y))
    | _, _ =>
      match a, b with
      | .str s, .str t => .ok (.str (s ++ t))
      | _, _ => .error .typeError

/-- Python `left - right`. -/
def subV (a b : Value) : Except Err Value :=
  match a.asInt, b.asInt with
  | some x, some y => .ok (.int (x - y))
  | _, _ =>
    match a.asNum, b.asNum with
    | some x, some y => .ok (.float (x - y))
    | _, _ => .error .typeError

/-- Python `left * right`, including string repetition. -/
def multV (a b : Value) : Except Err Value :=
  match a.asInt, b.asInt with
  | some x, some y => .ok (.int (x * y))
  | _, _ =>
    match a.asNum, b.asNum with
    | some x, some y => .ok (.float (x * y))
    | _, _ =>
      match a, b with
      | .str s, _ => match b.asInt with
        | some n => .ok (.str (strRepeat s n))
        | _ => .error .typeError
      | _, .str s => match a.asInt with
        | some n => .ok (.str (strRepeat s n))
        | _ => .error .typeError
      | _, _ => .error .typeError

/-- Python true division `left / right`: always a float. -/
def divV (a b : Value) : Except Err Value :=
  match a.asNum, b.asNum with
  | some x, some y => if y = 0 then .error .zeroDivision else .ok (.float (x / y))
  | _, _ => .error .typeError

/-- Python floor division `left // right`. -/
def floordivV (a b : Value) : Except Err Value :=
  match a.asInt, b.asInt with
  | some x, some y => if y = 0 then .error .zeroDivision else .ok (.int (Int.fdiv x y))
  | _, _ =>
    match a.asNum, b.asNum with
    | some x, some y =>
        if y = 0 then .error .zeroDivision else .ok (.float (Rat.floor (x / y) : Int))
    | _, _ => .error .typeError

/-- Python `left % right`; the sign of the result follows the divisor. -/
def modV (a b : Value) : Except Err Value :=
  match a.asInt, b.asInt with
  | some x, some y => if y = 0 then .error .zeroDivision else .ok (.int (Int.fmod x y))
  | _, _ =>
    match a.asNum, b.asNum with
    | some x, some y =>
        if y = 0 then .error .zeroDivision
        else .ok (.float (x - y * (Rat.floor (x / y) : Int)))
    | _, _ => .error .typeError

/-- Python `left ** right`. A negative integer exponent produces a float;
float exponents are outside this embedding (they may be irrational). -/
def powV (a b : Value) : Except Err Value :=
  match a.asNum, b.asInt with
  | some x, some e =>
      if e ≥ 0 then
        match a.asInt with
        | some xi => .ok (.int (xi ^ e.toNat))
        | _ => .ok (.float (x ^ e.toNat))
      else if x = 0 then .error .zeroDivision
      else .ok (.float (1 / x ^ (-e).toNat))
  | _, _ =>
    match a.asNum, b.asNum with
    | some _, some _ => .error .notModeled
    | _, _ => .error .typeError

/-- Python `left << right`: integers only, negative count is an error. -/
def lshiftV (a b : Value) : Except Err Value :=
  match a.asInt, b.asInt with
  | some x, some c =>
      if c < 0 then .error .valueError else .ok (.int (x * 2 ^ c.toNat))
  | _, _ => .error .typeError

/-- Python `left >> right`: arithmetic (flooring) shift. -/
def rshiftV (a b : Value) : Except Err Value :=
  match a.asInt, b.asInt with
  | some x, some c =>
      if c < 0 then .error .valueError else .ok (.int (Int.fdiv x (2 ^ c.toNat)))
  | _, _ => .error .typeError

/-- Python bitwise `|`, `^`, `&`: integers only. -/
def bitV (f : Int → Int → Int) (a b : Value) : Except Err Value :=
  match a.asInt, b.asInt with
  | some x, some y => .ok (.int (f x y))
  | _, _ => .error .typeError

/-- Python `left @ right`: none of the interpreter value types support
matrix multiplication, so this branch always raises `TypeError`. -/
def matmultV (_ _ : Value) : Except Err Value := .error .typeError

/-- Dispatch table of the `ast.BinOp` branch of `State.eval_expr`. -/
def binOpEval : BinOp → Value → Value → Except Err Value
  | .add => addV
  | .sub => subV
  | .mult => multV
  | .div => divV
  | .floordiv => floordivV
  | .mod => modV
  | .pow => powV
  | .lshift => lshiftV
  | .rshift => rshiftV
  | .bitor => bitV intOr
  | .bitxor => bitV intXor
  | .bitand => bitV intAnd
  | .matmult => matmultV

/-- Dispatch table of the `ast.UnaryOp` branch of `State.eval_expr`. -/
def unOpEval : UnOp → Value → Except Err Value
  | .usub, v => match v with
      | .float q => .ok (.float (-q))
      | _ => match v.asInt with
        | some n => .ok (.int (-n))
        | _ => .error .typeError
  | .uadd, v => match v with
      | .float q => .ok (.float q)
      | _ => match v.asInt with
        | some n => .ok (.int n)
        | _ => .error .typeError
  | .unot, v => .ok (.bool (!truthy v))
  | .invert, v => match v.asInt with
      | some n => .ok (.int (-(n + 1)))
      | _ => .error .typeError

/-- Python `==` on interpreter values. Numbers compare across `int`,
`bool` and `float`; `Closure.__eq__` is structural; distinct types are
unequal. Identity of `Bottom` instances is abstracted to `true`. -/
def cmpEq (a b : Value) : Bool :=
  match a.asNum, b.asNum with
  | some x, some y => x == y
  | _, _ =>
    match a, b with
    | .str s, .str t => s == t
    | .pynone, .pynone => true
    | .closure l f p, .closure l2 f2 p2 => l == l2 && f == f2 && p == p2
    | .bottom, .bottom => true
    | _, _ => false

/-- Python `<` and friends: numbers cross-type, strings lexicographic,
anything else is a `TypeError`. `le` is the negation of the reversed
strict order (both orders are total on the comparable values). -/
def cmpLt (a b : Value) : Except Err Bool :=
  match a.asNum, b.asNum with
  | some x, some y => .ok (decide (x < y))
  | _, _ =>
    match a, b with
    | .str s, .str t => .ok (decide (s < t))
    | _, _ => .error .typeError

/-- Python `is`: decidable only for the singleton objects `None`, `True`
and `False`; identity of other heap objects is not modelled. -/
def cmpIs (a b : Value) : Except Err Bool :=
  match a, b with
  | .pynone, .pynone => .ok true
  | .bool x, .bool y => .ok (x == y)
  | .pynone, _ => .ok false
  | _, .pynone => .ok false
  | .bool _, _ => .ok false
  | _, .bool _ => .ok false
  | _, _ => .error .notModeled

/-- Python `in`: substring test for strings, `TypeError` otherwise. -/
def cmpIn (a b : Value) : Except Err Bool :=
  match a, b with
  | .str s, .str t => .ok (containsSub s.data t.data)
  | _, .str _ => .error .typeError
  | _, _ => .error .typeError

/-- Dispatch table of the `ast.Compare` branch of `State.eval_expr`. -/
def cmpOpEval : CmpOp → Value → Value → Except Err Bool
  | .eq, a, b => .ok (cmpEq a b)
  | .ne, a, b => .ok (!cmpEq a b)
  | .lt, a, b => cmpLt a b
  | .le, a, b => (cmpLt b a).map (!·)
  | .gt, a, b => cmpLt b a
  | .ge, a, b => (cmpLt a b).map (!·)
  | .isOp, a, b => cmpIs a b
  | .isNotOp, a, b => (cmpIs a b).map (!·)
  | .inOp, a, b => cmpIn a b
  | .notInOp, a, b => (cmpIn a b).map (!·)

/-! ## Expressions (`simplipy/parse/expression.py`)

The `Expression` wrapper stores a raw `ast.expr`; by the simplifier
contract it contains no `Call` node, so the closed grammar below covers
exactly the evaluable forms of `State.eval_expr`. Constants are source
literals (never closures or `Bottom`). -/

inductive Lit where
  | intL (n : Int)
  | boolL (b : Bool)
  | strL (s : String)
  | floatL (q : Rat)
  | noneL
deriving DecidableEq, Repr

/-- The value of an `ast.Constant`. -/
def Lit.toValue : Lit → Value
  | .intL n => .int n
  | .boolL b => .bool b
  | .strL s => .str s
  | .floatL q => .float q
  | .noneL => .pynone

inductive Expr where
  | const (l : Lit)
  | name (id : String)
  | unaryOp (op : UnOp) (operand : Expr)
  | binOp (op : BinOp) (left right : Expr)
  | compare (left : Expr) (ops : List CmpOp) (comparators : List Expr)

/-! ## The IR tree (`simplipy/parse/types.py`, `statement.py`, `instruction.py`)

A `Stmt` is the fused statement/instruction node: leaf statements wrap
exactly one instruction and composite statements (`IfStmt`, `WhileStmt`,
`DefStmt`) carry their head instruction inline, so `stmt.first_instr()`
is the constructor's own data and `first()` is the stored `lineno`.
A `Blk` carries the `lexical` flag and the three scope sets.

The Python IR stores back-references (`stmt.parent`, `stmt.idx`,
`block.parent`); here a statement's surroundings are carried explicitly:
`idx` is its index in the containing block `blk`, and `ancs` lists the
enclosing composite statements from innermost to outermost, each with its
own index and containing block. `ancs = []` means the containing block is
the top-level block (`block.parent is None`). -/

mutual
inductive Stmt where
  | passS (lineno : Nat)
  | globalS (lineno : Nat) (vars : List String)
  | nonlocalS (lineno : Nat) (vars : List String)
  | exprAssign (lineno : Nat) (var : String) (expr : Expr)
  | callAssign (lineno : Nat) (var : String) (funcVar : String) (funcArgs : List Expr)
  | breakS (lineno : Nat)
  | continueS (lineno : Nat)
  | retS (lineno : Nat) (expr : Expr)
  | ifS (lineno : Nat) (test : Expr) (ifBlock elseBlock : Blk)
  | whileS (lineno : Nat) (test : Expr) (body : Blk)
  | defS (lineno : Nat) (funcVar : String) (formals : List String) (body : Blk)

inductive Blk where
  | mk (lexical : Bool) (lcls nonlcls gbls : List String) (stmts : List Stmt)
end

def Blk.stmts : Blk → List Stmt
  | .mk _ _ _ _ s => s

def Blk.lexical : Blk → Bool
  | .mk lex _ _ _ _ => lex

/-- The `locals` set of a lexical block. -/
def Blk.lcls : Blk → List String
  | .mk _ l _ _ _ => l

/-- The `nonlocals` set of a lexical block. -/
def Blk.nonlcls : Blk → List String
  | .mk _ _ nl _ _ => nl

/-- The `globals` set of a lexical block. -/
def Blk.gbls : Blk → List String
  | .mk _ _ _ g _ => g

/-- Every statement's `first()` (and `first_instr().lineno`) is the line
number stored in its head instruction. -/
def Stmt.lineno : Stmt → Nat
  | .passS l => l
  | .globalS l _ => l
  | .nonlocalS l _ => l
  | .exprAssign l _ _ => l
  | .callAssign l _ _ _ => l
  | .breakS l => l
  | .continueS l => l
  | .retS l _ => l
  | .ifS l _ _ _ => l
  | .whileS l _ _ => l
  | .defS l _ _ _ => l

/-- `Block.first()`: line of the first statement. Python raises
`IndexError` on an empty block; `0` stands in for that unreachable case
(parser output never contains empty blocks). -/
def Blk.firstLine : Blk → Nat
  | .mk _ _ _ _ [] => 0
  | .mk _ _ _ _ (s :: _) => s.lineno

mutual
/-- `Statement.last()`: last line of the subtree. -/
def Stmt.lastLine : Stmt → Nat
  | .passS l => l
  | .globalS l _ => l
  | .nonlocalS l _ => l
  | .exprAssign l _ _ => l
  | .callAssign l _ _ _ => l
  | .breakS l => l
  | .continueS l => l
  | .retS l _ => l
  | .ifS _ _ _ elseBlock => elseBlock.lastLine
  | .whileS _ _ body => body.lastLine
  | .defS _ _ _ body => body.lastLine

/-- `Block.last()`: last line of the last statement (`0` on the empty
block, where Python raises `IndexError`; unreachable for parser output). -/
def Blk.lastLine : Blk → Nat
  | .mk _ _ _ _ stmts => stmtsLastLine stmts

def stmtsLastLine : List Stmt → Nat
  | [] => 0
  | [s] => s.lastLine
  | _ :: s :: rest => stmtsLastLine (s :: rest)
end

/-- One level of enclosing context: the composite parent statement, its
index in its own containing block, and that block. -/
structure Anc where
  stmt : Stmt
  idx : Nat
  blk : Blk

/-- A statement located in the program: the payload of `instr_map`
entries, carrying what Python reaches through `instr.parent` and
`block.parent` back-references. -/
structure LocStmt where
  stmt : Stmt
  idx : Nat
  blk : Blk
  ancs : List Anc

/-! ## Statement-transfer functions (`simplipy/ctf/stf.py`, `helper.py`) -/

/-- `encl(WhileStmt, stmt)`: walk outward to the innermost enclosing
`While` statement, with its own location; `SyntaxError` at top level. -/
def enclWhile : List Anc → Except Err (Stmt × Nat × Blk × List Anc)
  | [] => .error .hitTopLevel
  | a :: rest =>
      match a.stmt with
      | .whileS l e b => .ok (.whileS l e b, a.idx, a.blk, rest)
      | _ => enclWhile rest

theorem enclWhile_length_lt :
    ∀ (ancs : List Anc) (w : Stmt) (wi : Nat) (wb : Blk) (wa : List Anc),
      enclWhile ancs = .ok (w, wi, wb, wa) → wa.length < ancs.length := by
  intro ancs
  induction ancs with
  | nil => intro w wi wb wa h; simp [enclWhile] at h
  | cons a rest ih =>
      intro w wi wb wa h
      unfold enclWhile at h
      cases hs : a.stmt <;> rw [hs] at h <;>
        try exact Nat.lt_succ_of_lt (ih _ _ _ _ h)
      simp only [Except.ok.injEq, Prod.mk.injEq] at h
      obtain ⟨-, -, -, hwa⟩ := h
      simp [← hwa]

/-- `STF.next` (`stf.py`), fuelled: every recursive call strictly shrinks
the ancestor list, so fuel `ancs.length + 1` (supplied by `stfNext`)
never runs out and the function agrees with the Python recursion. -/
def stfNextAux : Nat → Stmt → Nat → Blk → List Anc → Except Err Stmt
  | 0, _, _, _, _ => .error .outOfFuel
  | fuel + 1, stmt, idx, blk, ancs =>
      match stmt with
      | .continueS _ => (enclWhile ancs).map (fun r => r.1)
      | .breakS _ =>
          match enclWhile ancs with
          | .error e => .error e
          | .ok (w, wi, wb, wa) => stfNextAux fuel w wi wb wa
      | .retS _ _ => .error .valueError
      | _ =>
          if idx + 1 == blk.stmts.length then
            match ancs with
            | [] => .ok stmt
            | a :: rest => stfNextAux fuel a.stmt a.idx a.blk rest
          else
            match blk.stmts[idx + 1]? with
            | some s => .ok s
            | Option.none => .error .indexError

def stfNext (stmt : Stmt) (idx : Nat) (blk : Blk) (ancs : List Anc) : Except Err Stmt :=
  stfNextAux (ancs.length + 1) stmt idx blk ancs

/-- `STF.true`: first statement of the taken branch. -/
def stfTrue : Stmt → Except Err Stmt
  | .whileS _ _ body =>
      match body.stmts[0]? with
      | some s => .ok s
      | Option.none => .error .indexError
  | .ifS _ _ ifBlock _ =>
      match ifBlock.stmts[0]? with
      | some s => .ok s
      | Option.none => .error .indexError
  | _ => .error .valueError

/-- `STF.false`: for `While` the statement after the loop, for `If` the
first statement of the else block. -/
def stfFalse (stmt : Stmt) (idx : Nat) (blk : Blk) (ancs : List Anc) : Except Err Stmt :=
  match stmt with
  | .whileS l e b => stfNext (.whileS l e b) idx blk ancs
  | .ifS _ _ _ elseBlock =>
      match elseBlock.stmts[0]? with
      | some s => .ok s
      | Option.none => .error .indexError
  | _ => .error .valueError

/-! ## The CTF builder (`simplipy/ctf/ctf.py`) -/

/-- The three line-to-line maps produced by `get_ctfs`. -/
structure Ctfs where
  nextTbl : List (Nat × Nat)
  trueTbl : List (Nat × Nat)
  falseTbl : List (Nat × Nat)
deriving DecidableEq, Repr

mutual
/-- One iteration of the `visit_all_instrs` loop body for the statement
`stmt` at index `idx` of block `blk`. -/
def visitStmt (ancs : List Anc) (blk : Blk) (idx : Nat) (stmt : Stmt) (tbl : Ctfs) :
    Except Err Ctfs :=
  match stmt with
  | .ifS l e ifBlock elseBlock => do
      let t ← stfTrue (.ifS l e ifBlock elseBlock)
      let f ← stfFalse (.ifS l e ifBlock elseBlock) idx blk ancs
      let tbl := { tbl with trueTbl := bindKey tbl.trueTbl l t.lineno,
                            falseTbl := bindKey tbl.falseTbl l f.lineno }
      let tbl ← visitBlk (⟨.ifS l e ifBlock elseBlock, idx, blk⟩ :: ancs) ifBlock tbl
      visitBlk (⟨.ifS l e ifBlock elseBlock, idx, blk⟩ :: ancs) elseBlock tbl
  | .whileS l e body => do
      let t ← stfTrue (.whileS l e body)
      let f ← stfFalse (.whileS l e body) idx blk ancs
      let tbl := { tbl with trueTbl := bindKey tbl.trueTbl l t.lineno,
                            falseTbl := bindKey tbl.falseTbl l f.lineno }
      visitBlk (⟨.whileS l e body, idx, blk⟩ :: ancs) body tbl
  | .defS l fv formals body => do
      let n ← stfNext (.defS l fv formals body) idx blk ancs
      let tbl := { tbl with nextTbl := bindKey tbl.nextTbl l n.lineno }
      visitBlk (⟨.defS l fv formals body, idx, blk⟩ :: ancs) body tbl
  | .retS _ _ => .ok tbl
  | leaf => do
      let n ← stfNext leaf idx blk ancs
      .ok { tbl with nextTbl := bindKey tbl.nextTbl leaf.lineno n.lineno }

/-- Recurse into a sub-block (`visit_all_instrs(blk)`). -/
def visitBlk (ancs : List Anc) (b : Blk) (tbl : Ctfs) : Except Err Ctfs :=
  match b with
  | .mk lex a c d stmts => visitStmts ancs (.mk lex a c d stmts) 0 stmts tbl

/-- The `for stmt in blk` loop of `visit_all_instrs`, with the running
index made explicit. -/
def visitStmts (ancs : List Anc) (blk : Blk) (idx : Nat) (rest : List Stmt) (tbl : Ctfs) :
    Except Err Ctfs :=
  match rest with
  | [] => .ok tbl
  | stmt :: rest2 => do
      let tbl ← visitStmt ancs blk idx stmt tbl
      visitStmts ancs blk (idx + 1) rest2 tbl
end

/-- `get_ctfs(pgm)`: walk the whole program, then add the terminal fixed
point `next[last + 1] = last + 1`. -/
def getCtfs (pgm : Blk) : Except Err Ctfs := do
  let tbl ← visitBlk [] pgm ⟨[], [], []⟩
  .ok { tbl with
          nextTbl := bindKey tbl.nextTbl (pgm.lastLine + 1) (pgm.lastLine + 1) }

/-! ## The instruction index (`State._populate_instr_map`) -/

mutual
/-- Register one statement's head instruction and recurse into its blocks. -/
def popStmt (ancs : List Anc) (blk : Blk) (idx : Nat) (stmt : Stmt)
    (acc : List (Nat × LocStmt)) : List (Nat × LocStmt) :=
  match stmt with
  | .ifS l e ifBlock elseBlock =>
      let acc := bindKey acc l ⟨.ifS l e ifBlock elseBlock, idx, blk, ancs⟩
      let acc := popBlk (⟨.ifS l e ifBlock elseBlock, idx, blk⟩ :: ancs) ifBlock acc
      popBlk (⟨.ifS l e ifBlock elseBlock, idx, blk⟩ :: ancs) elseBlock acc
  | .whileS l e body =>
      let acc := bindKey acc l ⟨.whileS l e body, idx, blk, ancs⟩
      popBlk (⟨.whileS l e body, idx, blk⟩ :: ancs) body acc
  | .defS l fv formals body =>
      let acc := bindKey acc l ⟨.defS l fv formals body, idx, blk, ancs⟩
      popBlk (⟨.defS l fv formals body, idx, blk⟩ :: ancs) body acc
  | leaf => bindKey acc leaf.lineno ⟨leaf, idx, blk, ancs⟩

def popBlk (ancs : List Anc) (b : Blk) (acc : List (Nat × LocStmt)) :
    List (Nat × LocStmt) :=
  match b with
  | .mk lex a c d stmts => popStmts ancs (.mk lex a c d stmts) 0 stmts acc

def popStmts (ancs : List Anc) (blk : Blk) (idx : Nat) (rest : List Stmt)
    (acc : List (Nat × LocStmt)) : List (Nat × LocStmt) :=
  match rest with
  | [] => acc
  | stmt :: rest2 => popStmts ancs blk (idx + 1) rest2 (popStmt ancs blk idx stmt acc)
end

/-- `instr_map` of a program. -/
def instrMapOf (pgm : Blk) : List (Nat × LocStmt) := popBlk [] pgm []

/-! ## Runtime state (`simplipy/semantics/state.py`)

`GLOBAL_ENV_ID = 0`. The continuation stack is kept TOP-AT-HEAD here
(Python keeps the top at the end of the list); the bottom frame is the
last element. -/

/-- A continuation frame `Context(lineno, env_id)`. -/
structure Context where
  lineno : Nat
  envId : Nat
deriving DecidableEq, Repr

abbrev EnvMap := List (String × Value)

/-- The mutable part of `State`: environment store (`e`), parent chain
(`p`) and continuation (`k`). -/
structure StateD where
  envs : List (Nat × EnvMap)
  edges : List (Nat × Nat)
  stack : List Context
deriving DecidableEq, Repr

/-- The immutable part of `State`: the CTF tables and instruction index. -/
structure Pgm where
  ctfs : Ctfs
  instrMap : List (Nat × LocStmt)

/-- `max(self.envs.keys())`; the store always contains key 0. -/
def maxEnvId (envs : List (Nat × EnvMap)) : Nat :=
  envs.foldl (fun m p => max m p.1) 0

/-- Python `self.e.envs[env_id][var] = val` (the id is always present). -/
def updateEnv : List (Nat × EnvMap) → Nat → String → Value → List (Nat × EnvMap)
  | [], _, _, _ => []
  | (id, env) :: rest, envId, var, v =>
      if id = envId then (id, bindKey env var v) :: rest
      else (id, env) :: updateEnv rest envId var v

def bindInEnv (s : StateD) (envId : Nat) (var : String) (v : Value) : StateD :=
  { s with envs := updateEnv s.envs envId var v }

/-- `State.get_parent_chain`, fuelled: the Python `while current in
edges` loop terminates exactly when parent edges decrease, and then at
most `start` hops happen, so fuel `start + 1` reproduces it. -/
def chainAux (edges : List (Nat × Nat)) : Nat → Nat → List Nat
  | cur, 0 => [cur]
  | cur, fuel + 1 =>
      match lookupKey edges cur with
      | Option.none => [cur]
      | some p => cur :: chainAux edges p fuel

def getParentChain (edges : List (Nat × Nat)) (start : Nat) : List Nat :=
  chainAux edges start (start + 1)

/-- Climb `blk.parent.parent` until a lexical block; returns the block
and the ancestor levels above it (empty ⟺ `blk.parent is None`). The
non-lexical-root case cannot arise: the top-level block is lexical. -/
def enclLexical : Blk → List Anc → Blk × List Anc
  | blk, ancs =>
      if blk.lexical then (blk, ancs)
      else
        match ancs with
        | [] => (blk, [])
        | a :: rest => enclLexical a.blk rest

/-- The `[self.e.envs[env_id] for env_id in chain]` comprehension:
`KeyError` if any chain id is missing from the store. -/
def fetchEnvs (envs : List (Nat × EnvMap)) : List Nat → Except Err (List (Nat × EnvMap))
  | [] => .ok []
  | id :: rest =>
      match lookupKey envs id with
      | some env => (fetchEnvs envs rest).map (fun tail => (id, env) :: tail)
      | Option.none => .error .keyError

/-- The `for env in …: if var in env: return env` searches, falling
through to `raise LookupError`. Returns the environment id (Python
returns the dict reference; ids identify dicts uniquely). -/
def findWithVar (var : String) : List (Nat × EnvMap) → Except Err Nat
  | [] => .error (.lookupFailure var)
  | (id, env) :: rest => if hasKey env var then .ok id else findWithVar var rest

/-- `State.lookup_env`, returning the id of the environment to read or
write. Mirrors the source order: find the enclosing lexical block, fetch
every chain environment (KeyError first), then the global/nonlocal
branch analysis. -/
def lookupEnvId (s : StateD) (loc : LocStmt) (var : String) : Except Err Nat :=
  match s.stack with
  | [] => .error .emptyStack
  | ctx :: _ =>
    let lex := enclLexical loc.blk loc.ancs
    let blk := lex.1
    let chain := getParentChain s.edges ctx.envId
    match fetchEnvs s.envs chain with
    | .error e => .error e
    | .ok chainEnvs =>
      if var ∈ blk.gbls ∧ var ∈ blk.nonlcls then .error (.scopeConflict var)
      else if lex.2.isEmpty ∨ var ∈ blk.gbls then
        match lookupKey s.envs 0 with
        | some _ => .ok 0
        | Option.none => .error .keyError
      else if var ∈ blk.nonlcls then findWithVar var (chainEnvs.drop 1).dropLast
      else findWithVar var chainEnvs

/-- `State.lookup_val`: `lookup_env(var)[var]`; a `KeyError` on the
global environment is Python's unbound-name failure. -/
def lookupVal (s : StateD) (loc : LocStmt) (var : String) : Except Err Value :=
  match lookupEnvId s loc var with
  | .error e => .error e
  | .ok id =>
    match lookupKey s.envs id with
    | some env =>
      match lookupKey env var with
      | some v => .ok v
      | Option.none => .error .keyError
    | Option.none => .error .keyError

/-! ## The expression evaluator (`State.eval_expr`) -/

mutual
def evalExpr (s : StateD) (loc : LocStmt) : Expr → Except Err Value
  | .const l => .ok l.toValue
  | .name id => lookupVal s loc id
  | .unaryOp op e =>
      match evalExpr s loc e with
      | .error er => .error er
      | .ok v => unOpEval op v
  | .binOp op l r =>
      match evalExpr s loc l with
      | .error er => .error er
      | .ok a =>
        match evalExpr s loc r with
        | .error er => .error er
        | .ok b => binOpEval op a b

  | .compare l ops comps =>
      match evalExpr s loc l with
      | .error er => .error er
      | .ok a => evalCmpChain s loc a ops comps

/-- The chained-comparison loop: `zip(expr.ops, expr.comparators)` with
short-circuit `False` and final `True`. -/
def evalCmpChain (s : StateD) (loc : LocStmt) (left : Value) :
    List CmpOp → List Expr → Except Err Value
  | op :: ops, c :: cs =>
      match evalExpr s loc c with
      | .error er => .error er
      | .ok right =>
        match cmpOpEval op left right with
        | .error er => .error er
        | .ok res =>
            if res then evalCmpChain s loc right ops cs else .ok (.bool false)
  | _, _ => .ok (.bool true)
end

/-! ## The stepper (`State.step`) -/

/-- Result of one `step` call. On `err` the carried state is the object
as the escaping exception leaves it — Python keeps mutations already
performed. -/
inductive StepRes where
  | ok (s : StateD)
  | err (e : Err) (s : StateD)
deriving DecidableEq, Repr

/-- `self.k.top().lineno = self.ctfs[which][self.k.top().lineno]`;
a missing table entry is a `KeyError` with the state as mutated so far. -/
def applyCtf (tbl : List (Nat × Nat)) (s : StateD) : StepRes :=
  match s.stack with
  | [] => .err .emptyStack s
  | c :: rest =>
      match lookupKey tbl c.lineno with
      | some l2 => .ok { s with stack := ⟨l2, c.envId⟩ :: rest }
      | Option.none => .err .keyError s

/-- The `zip(closure.formals, map(self.eval_expr, args))` loop: formals
are bound one at a time, each argument evaluated just before its binding
(Python `zip`/`map` are lazy), so an argument error leaves the earlier
formals already bound in the fresh environment. -/
def bindFormalsLoop (s : StateD) (loc : LocStmt) (envId : Nat) :
    List String → List Expr → StepRes
  | f :: fs, a :: as =>
      match evalExpr s loc a with
      | .error er => .err er s
      | .ok v => bindFormalsLoop (bindInEnv s envId f v) loc envId fs as
  | _, _ => .ok s

/-- `call_instr.var`: Python reads the attribute without an isinstance
check; `CallAssignInstr` and `ExprAssignInstr` both carry `.var`, every
other instruction raises `AttributeError`. -/
def targetVar : Stmt → Option String
  | .callAssign _ v _ _ => some v
  | .exprAssign _ v _ => some v
  | _ => Option.none

/-- `State.step`. Each branch performs its fallible sub-operations and
mutations in exactly the source order, so error results carry precisely
the mutations Python would have kept. -/
def step (P : Pgm) (s : StateD) : StepRes :=
  match s.stack with
  | [] => .err .emptyStack s
  | ctx :: _ =>
    match lookupKey P.instrMap ctx.lineno with
    | Option.none => .err .keyError s
    | some loc =>
      match loc.stmt with
      | .passS _ | .breakS _ | .continueS _ | .globalS _ _ | .nonlocalS _ _ =>
          applyCtf P.ctfs.nextTbl s
      | .exprAssign _ var e =>
          match lookupEnvId s loc var with
          | .error er => .err er s
          | .ok envId =>
            match evalExpr s loc e with
            | .error er => .err er s
            | .ok v => applyCtf P.ctfs.nextTbl (bindInEnv s envId var v)
      | .ifS _ e _ _ =>
          match evalExpr s loc e with
          | .error er => .err er s
          | .ok v =>
              if truthy v then applyCtf P.ctfs.trueTbl s
              else applyCtf P.ctfs.falseTbl s
      | .whileS _ e _ =>
          match evalExpr s loc e with
          | .error er => .err er s
          | .ok v =>
              if truthy v then applyCtf P.ctfs.trueTbl s
              else applyCtf P.ctfs.falseTbl s
      | .defS _ fv formals body =>
          match body.stmts with
          | [] => .err .indexError s
          | b0 :: _ =>
            let clo := Value.closure b0.lineno formals ctx.envId
            match lookupEnvId s loc fv with
            | .error er => .err er s
            | .ok envId => applyCtf P.ctfs.nextTbl (bindInEnv s envId fv clo)
      | .callAssign _ _ fv args =>
          match lookupVal s loc fv with
          | .error er => .err er s
          | .ok (Value.closure clLine formals parId) =>
              if args.length ≠ formals.length then .err (.arityError fv) s
              else
                let newId := maxEnvId s.envs + 1
                let s1 : StateD := { s with envs := s.envs ++ [(newId, [])] }
                match bindFormalsLoop s1 loc newId formals args with
                | .err er s2 => .err er s2
                | .ok s2 =>
                  match lookupKey P.instrMap clLine with
                  | Option.none => .err .keyError s2
                  | some cloc =>
                    let lcls := cloc.blk.lcls.filter
                      (fun v => !cloc.blk.nonlcls.contains v && !cloc.blk.gbls.contains v)
                    let s3 := lcls.foldl (fun st v => bindInEnv st newId v .bottom) s2
                    let s4 : StateD := { s3 with edges := bindKey s3.edges newId parId }
                    .ok { s4 with stack := ⟨clLine, newId⟩ :: s4.stack }
          | .ok _ => .err (.notCallable fv) s
      | .retS _ e =>
          match evalExpr s loc e with
          | .error er => .err er s
          | .ok v =>
            let s1 : StateD := { s with stack := s.stack.tail }
            match s1.stack with
            | [] => .err .emptyStack s1
            | cctx :: _ =>
              match lookupKey P.instrMap cctx.lineno with
              | Option.none => .err .keyError s1
              | some cloc =>
                match targetVar cloc.stmt with
                | Option.none => .err .attributeError s1
                | some tv =>
                  match lookupEnvId s1 cloc tv with
                  | .error er => .err er s1
                  | .ok envId => applyCtf P.ctfs.nextTbl (bindInEnv s1 envId tv v)

/-- `State.is_final`: `lineno in next and next[lineno] == lineno`.
(Python would raise on an empty continuation; the stack is never empty
on reachable states.) -/
def isFinal (P : Pgm) (s : StateD) : Bool :=
  match s.stack with
  | [] => false
  | ctx :: _ =>
      match lookupKey P.ctfs.nextTbl ctx.lineno with
      | some l => l == ctx.lineno
      | Option.none => false

/-- `State.__init__`: builds the CTFs and instruction index (exceptions
abort construction) and the initial dynamic state
`envs = {0: {}}`, empty parent chain, `k = [(first_line, 0)]`. -/
def createState (pgm : Blk) : Except Err (Pgm × StateD) :=
  match getCtfs pgm with
  | .error e => .error e
  | .ok ctfs => .ok (⟨ctfs, instrMapOf pgm⟩, ⟨[(0, [])], [], [⟨pgm.firstLine, 0⟩]⟩)

/-- The `step_program` endpoint of `main.py`: short-circuits on a final
state, otherwise delegates to `State.step` and reports finality; an
execution error keeps the session state as mutated. -/
def stepProgram (P : Pgm) (s : StateD) : Except (Err × StateD) (StateD × Bool) :=
  if isFinal P s then .ok (s, true)
  else
    match step P s with
    | .ok s2 => .ok (s2, isFinal P s2)
    | .err e s2 => .error (e, s2)

/-! ## The IR builder (`simplipy/parse/parse.py`)

`PyStmt` is the surface tree the `Visitor` consumes: exactly the `ast`
shapes it accepts (one `Name` target per assignment, a whole-RHS call or
a call-free expression, mandatory else checked at visit time, a valued
return). The other `NotImplementedError` rejections of the visitor
concern surface forms this closed grammar cannot express. -/

inductive PyStmt where
  | passP (lineno : Nat)
  | assignExprP (lineno : Nat) (target : String) (value : Expr)
  | assignCallP (lineno : Nat) (target : String) (func : String) (args : List Expr)
  | ifP (lineno : Nat) (test : Expr) (body orelse : List PyStmt)
  | whileP (lineno : Nat) (test : Expr) (body : List PyStmt)
  | breakP (lineno : Nat)
  | continueP (lineno : Nat)
  | funcDefP (lineno : Nat) (name : String) (args : List String) (body : List PyStmt)
  | returnP (lineno : Nat) (value : Expr)
  | globalP (lineno : Nat) (names : List String)
  | nonlocalP (lineno : Nat) (names : List String)

/-- Python `set.add`: no-op on a present element, else append. -/
def addName (l : List String) (v : String) : List String :=
  if v ∈ l then l else l ++ [v]

def addNames (l : List String) (vs : List String) : List String :=
  vs.foldl addName l

/-- The scope sets of the enclosing lexical block under construction,
plus whether that block is the top-level block (`block_stack[0]`). -/
structure ScopeAcc where
  lcls : List String
  nonlcls : List String
  gbls : List String
  isTop : Bool
deriving Repr

/-- `Visitor._update_locals`: add to the enclosing lexical block's
`locals` only when that block is not the top-level block. -/
def updateLocals (acc : ScopeAcc) (v : String) : ScopeAcc :=
  if acc.isTop then acc else { acc with lcls := addName acc.lcls v }

mutual
/-- One `Visitor.visit_*` dispatch. Produces the IR statement and the
updated scope sets of the enclosing lexical block. Non-lexical (if/while)
blocks carry empty sets, as in `Block.__init__(lexical=False)`. -/
def buildStmt (acc : ScopeAcc) : PyStmt → Except Err (Stmt × ScopeAcc)
  | .passP l => .ok (.passS l, acc)
  | .assignExprP l t v => .ok (.exprAssign l t v, updateLocals acc t)
  | .assignCallP l t f args => .ok (.callAssign l t f args, updateLocals acc t)
  | .ifP l e body orelse =>
      match buildStmts acc body with
      | .error er => .error er
      | .ok (bs, acc1) =>
        if orelse.isEmpty then .error .valueError
        else
          match buildStmts acc1 orelse with
          | .error er => .error er
          | .ok (es, acc2) =>
              .ok (.ifS l e (.mk false [] [] [] bs) (.mk false [] [] [] es), acc2)
  | .whileP l e body =>
      match buildStmts acc body with
      | .error er => .error er
      | .ok (bs, acc1) => .ok (.whileS l e (.mk false [] [] [] bs), acc1)
  | .breakP l => .ok (.breakS l, acc)
  | .continueP l => .ok (.continueS l, acc)
  | .funcDefP l name args body =>
      let acc1 := updateLocals acc name
      match buildStmts ⟨[], [], [], false⟩ body with
      | .error er => .error er
      | .ok (bs, facc) =>
          .ok (.defS l name args (.mk true facc.lcls facc.nonlcls facc.gbls bs), acc1)
  | .returnP l v => .ok (.retS l v, acc)
  | .globalP l names => .ok (.globalS l names, { acc with gbls := addNames acc.gbls names })
  | .nonlocalP l names =>
      .ok (.nonlocalS l names, { acc with nonlcls := addNames acc.nonlcls names })

/-- A statement sequence visited in order, threading the enclosing
lexical block's scope sets. -/
def buildStmts (acc : ScopeAcc) : List PyStmt → Except Err (List Stmt × ScopeAcc)
  | [] => .ok ([], acc)
  | p :: rest =>
      match buildStmt acc p with
      | .error er => .error er
      | .ok (st, acc1) =>
        match buildStmts acc1 rest with
        | .error er => .error er
        | .ok (sts, acc2) => .ok (st :: sts, acc2)
end

/-- `Visitor.parse_pgm` on a module body: the top-level block is lexical
with the sets accumulated at top level (`locals` stays empty there). -/
def parsePgm (body : List PyStmt) : Except Err Blk :=
  match buildStmts ⟨[], [], [], true⟩ body with
  | .error er => .error er
  | .ok (sts, acc) => .ok (.mk true acc.lcls acc.nonlcls acc.gbls sts)

/-! ## Basic lemmas about the map primitives -/

theorem lookupKey_bindKey_self {κ α : Type} [DecidableEq κ]
    (m : List (κ × α)) (k : κ) (v : α) : lookupKey (bindKey m k v) k = some v := by
  induction m with
  | nil => simp [bindKey, lookupKey]
  | cons p rest ih =>
      obtain ⟨k0, v0⟩ := p
      by_cases h : k0 = k
      · subst h; simp [bindKey, lookupKey]
      · simp [bindKey, lookupKey, h, ih]

theorem lookupKey_bindKey_ne {κ α : Type} [DecidableEq κ]
    (m : List (κ × α)) (k k2 : κ) (v : α) (h : k2 ≠ k) :
    lookupKey (bindKey m k v) k2 = lookupKey m k2 := by
  induction m with
  | nil =>
      simp only [bindKey, lookupKey]
      rw [if_neg (fun hh => h hh.symm)]
  | cons p rest ih =>
      obtain ⟨k0, v0⟩ := p
      by_cases hk : k0 = k
      · subst hk
        by_cases hk2 : k0 = k2
        · exact absurd hk2.symm h
        · simp [bindKey, lookupKey, hk2]
      · simp only [bindKey, if_neg hk]
        by_cases hk2 : k0 = k2
        · simp [lookupKey, hk2]
        · simp [lookupKey, hk2, ih]

/-! ## Utilities for extracting concrete build/run artefacts

The `…OrJunk` extractors peel `Except`/`Option` layers around concrete
computations; each theorem that uses them separately asserts that the
computation succeeded, so the junk value never matters. -/

def junkBlk : Blk := .mk false [] [] [] []

def junkLoc : LocStmt := ⟨.passS 0, 0, junkBlk, []⟩

def blkOrJunk : Except Err Blk → Blk
  | .ok b => b
  | .error _ => junkBlk

def pgmOrJunk : Except Err (Pgm × StateD) → Pgm
  | .ok (P, _) => P
  | .error _ => ⟨⟨[], [], []⟩, []⟩

def stOrJunk : Except Err (Pgm × StateD) → StateD
  | .ok (_, s) => s
  | .error _ => ⟨[], [], []⟩

/-- The state a `StepRes` carries, whether the step succeeded or not. -/
def StepRes.state : StepRes → StateD
  | .ok s => s
  | .err _ s => s

def locOrJunk : Option LocStmt → LocStmt
  | some loc => loc
  | Option.none => junkLoc

/-! ## Claim C1 — errors during `step` and the CallAssign environment leak

Program under test:
```
1  def f(a):
2      return a
3  x = f(y)        # y is unbound: evaluating the argument raises
```
-/

def c1src : List PyStmt := [
  .funcDefP 1 "f" ["a"] [.returnP 2 (.name "a")],
  .assignCallP 3 "x" "f" [.name "y"]]

def c1blk : Blk := blkOrJunk (parsePgm c1src)

def c1P : Pgm := pgmOrJunk (createState c1blk)

def c1s0 : StateD := stOrJunk (createState c1blk)

/-- State after executing the `def` on line 1. -/
def c1s1 : StateD := (step c1P c1s0).state

/-- State left behind by the failing CallAssign step. -/
def c1s2 : StateD := (step c1P c1s1).state

/-- C1: REFUTED on the code. The claim says an error during `step`
leaves the environment store unchanged, but the CallAssign branch calls
`create_new_env()` before evaluating the arguments: when evaluating the
argument `y` fails, the freshly allocated environment 1 stays in the
store. The spec's propagation rule ("mutations only after all fallible
sub-operations succeed") marks this as a bug in the code. -/
theorem C1_callassign_error_mutates_state :
    parsePgm c1src = .ok c1blk
    ∧ createState c1blk = .ok (c1P, c1s0)
    ∧ step c1P c1s0 = .ok c1s1
    ∧ step c1P c1s1 = .err .keyError c1s2
    ∧ c1s1.envs = [(0, [("f", .closure 2 ["a"] 0)])]
    ∧ c1s2.envs = [(0, [("f", .closure 2 ["a"] 0)]), (1, [])]
    ∧ c1s2 ≠ c1s1 := by
  refine ⟨rfl, rfl, rfl, rfl, rfl, rfl, ?_⟩
  decide

/-! ## Claim C2 — reading a `Bottom` local does not raise

Program under test:
```
1  def f():
2      y = y        # y is a local of f, initialised to Bottom at call
3      return y
4  r = f()
```
-/

def c2src : List PyStmt := [
  .funcDefP 1 "f" [] [
     .assignExprP 2 "y" (.name "y"),
     .returnP 3 (.name "y")],
  .assignCallP 4 "r" "f" []]

def c2blk : Blk := blkOrJunk (parsePgm c2src)

def c2P : Pgm := pgmOrJunk (createState c2blk)

def c2s0 : StateD := stOrJunk (createState c2blk)

def c2s1 : StateD := (step c2P c2s0).state

/-- State paused at line 2, about to read the Bottom-valued local `y`. -/
def c2s2 : StateD := (step c2P c2s1).state

def c2loc : LocStmt := locOrJunk (lookupKey c2P.instrMap 2)

/-- C2: REFUTED on the code. `eval_expr` for a `Name` returns
`self.lookup_val(...)` with no `Bottom` check, so evaluating `y` while it
holds the Bottom sentinel returns Bottom as a value instead of failing
with UnboundLocal, and the subsequent step happily stores Bottom into
`y`. The spec explicitly requires the UnboundLocal failure, so this is a
bug in the code. -/
theorem C2_bottom_read_returns_bottom :
    parsePgm c2src = .ok c2blk
    ∧ createState c2blk = .ok (c2P, c2s0)
    ∧ step c2P c2s0 = .ok c2s1
    ∧ step c2P c2s1 = .ok c2s2
    ∧ lookupKey c2s2.envs 1 = some [("y", Value.bottom)]
    ∧ lookupKey c2P.instrMap 2 = some c2loc
    ∧ lookupVal c2s2 c2loc "y" = .ok Value.bottom
    ∧ evalExpr c2s2 c2loc (.name "y") = .ok Value.bottom
    ∧ step c2P c2s2 = .ok ((step c2P c2s2).state) := by
  exact ⟨rfl, rfl, rfl, rfl, rfl, rfl, rfl, rfl, rfl⟩

/-! ## Claim C4 — the Bottom loop overwrites formal parameters

Program under test:
```
1  def f(x):
2      x = 5        # makes x a member of the body's locals
3      return x
4  r = f(7)
```
-/

def c4src : List PyStmt := [
  .funcDefP 1 "f" ["x"] [
     .assignExprP 2 "x" (.const (.intL 5)),
     .returnP 3 (.name "x")],
  .assignCallP 4 "r" "f" [.const (.intL 7)]]

def c4blk : Blk := blkOrJunk (parsePgm c4src)

def c4P : Pgm := pgmOrJunk (createState c4blk)

def c4s0 : StateD := stOrJunk (createState c4blk)

def c4s1 : StateD := (step c4P c4s0).state

/-- State just after the CallAssign on line 4 pushed the callee frame. -/
def c4s2 : StateD := (step c4P c4s1).state

/-- C4: REFUTED on the code. After binding the formal `x` to the
argument 7, the loop `for var in blk_locals: env[var] = Bottom()` has no
"not already bound" guard, so it overwrites `x` with Bottom (here `x` is
in the body's locals because line 2 assigns it). The claim — and the
spec's "for every name … that is not already bound" — says `x` must keep
the value 7, so this is a bug in the code. -/
theorem C4_bottom_loop_overwrites_formals :
    parsePgm c4src = .ok c4blk
    ∧ createState c4blk = .ok (c4P, c4s0)
    ∧ step c4P c4s0 = .ok c4s1
    ∧ step c4P c4s1 = .ok c4s2
    ∧ c4blk.stmts.head? =
        some (.defS 1 "f" ["x"]
          (.mk true ["x"] [] []
            [.exprAssign 2 "x" (.const (.intL 5)), .retS 3 (.name "x")]))
    ∧ lookupKey c4s2.envs 1 = some [("x", Value.bottom)]
    ∧ lookupKey c4s2.envs 1 ≠ some [("x", Value.int 7)] := by
  refine ⟨rfl, rfl, rfl, rfl, rfl, rfl, ?_⟩
  decide

/-! ## Claim C8 — stepping a final session state is a no-op -/

/-- C8: the `step_program` endpoint (the higher-level step the spec's
"State façade short-circuits" refers to) checks `is_final` first and does
not call `State.step` on a final state, so the whole state — environment
store, parent chain and continuation — is returned unchanged. -/
theorem C8_step_program_final_noop (P : Pgm) (s : StateD)
    (h : isFinal P s = true) : stepProgram P s = .ok (s, true) := by
  unfold stepProgram
  rw [if_pos h]

/-- Witness for C8: a concrete final state (the single-line program
`x = 1` is final immediately: `next[1] = 1`). -/
theorem C8_witness :
    isFinal (pgmOrJunk (createState (blkOrJunk (parsePgm [.assignExprP 1 "x" (.const (.intL 1))]))))
        (stOrJunk (createState (blkOrJunk (parsePgm [.assignExprP 1 "x" (.const (.intL 1))])))) = true
    ∧ stepProgram
        (pgmOrJunk (createState (blkOrJunk (parsePgm [.assignExprP 1 "x" (.const (.intL 1))]))))
        (stOrJunk (createState (blkOrJunk (parsePgm [.assignExprP 1 "x" (.const (.intL 1))])))) =
      .ok (stOrJunk (createState (blkOrJunk (parsePgm [.assignExprP 1 "x" (.const (.intL 1))]))), true) := by
  refine ⟨rfl, ?_⟩
  exact C8_step_program_final_noop _ _ rfl

/-! ## Claim C5 — `is_final` and the terminal sentinel entry -/

def ctfsOrJunk : Except Err Ctfs → Ctfs
  | .ok t => t
  | .error _ => ⟨[], [], []⟩

/-- C5: `is_final` holds exactly when the top line is a key of the
`next` table mapped to itself; `get_ctfs` unconditionally emits the
sentinel `next[last_top_level_line + 1] = last_top_level_line + 1` (the
final insertion), so a state whose program counter has advanced to that
sentinel line is final and blocks further progress. -/
theorem C5_is_final_fixed_point :
    (∀ (P : Pgm) (s : StateD) (ctx : Context) (rest : List Context),
       s.stack = ctx :: rest →
       (isFinal P s = true ↔ lookupKey P.ctfs.nextTbl ctx.lineno = some ctx.lineno))
    ∧ (∀ (pgm : Blk) (tbl : Ctfs), getCtfs pgm = .ok tbl →
         lookupKey tbl.nextTbl (pgm.lastLine + 1) = some (pgm.lastLine + 1))
    ∧ (∀ (pgm : Blk) (tbl : Ctfs) (P : Pgm) (s : StateD) (ctx : Context)
         (rest : List Context),
         getCtfs pgm = .ok tbl → P.ctfs = tbl → s.stack = ctx :: rest →
         ctx.lineno = pgm.lastLine + 1 → isFinal P s = true) := by
  have hfin : ∀ (P : Pgm) (s : StateD) (ctx : Context) (rest : List Context),
      s.stack = ctx :: rest →
      (isFinal P s = true ↔ lookupKey P.ctfs.nextTbl ctx.lineno = some ctx.lineno) := by
    intro P s ctx rest hstack
    unfold isFinal
    rw [hstack]
    show (match lookupKey P.ctfs.nextTbl ctx.lineno with
          | some l => l == ctx.lineno
          | Option.none => false) = true ↔ _
    cases hl : lookupKey P.ctfs.nextTbl ctx.lineno with
    | none =>
        show false = true ↔ (Option.none : Option Nat) = some ctx.lineno
        simp
    | some l =>
        show (l == ctx.lineno) = true ↔ some l = some ctx.lineno
        simp [beq_iff_eq]
  have hsent : ∀ (pgm : Blk) (tbl : Ctfs), getCtfs pgm = .ok tbl →
      lookupKey tbl.nextTbl (pgm.lastLine + 1) = some (pgm.lastLine + 1) := by
    intro pgm tbl h
    unfold getCtfs at h
    cases hv : visitBlk [] pgm ⟨[], [], []⟩ with
    | error e => rw [hv] at h; exact absurd h (by simp [Bind.bind, Except.bind])
    | ok t1 =>
        rw [hv] at h
        simp only [Bind.bind, Except.bind, Except.ok.injEq] at h
        rw [← h]
        exact lookupKey_bindKey_self _ _ _
  refine ⟨hfin, hsent, ?_⟩
  intro pgm tbl P s ctx rest hctf hP hstack hline
  rw [hfin P s ctx rest hstack, hP, hline]
  exact hsent pgm tbl hctf

def c5src : List PyStmt := [
  .assignExprP 1 "i" (.const (.intL 0)),
  .whileP 2 (.compare (.name "i") [.lt] [.const (.intL 3)]) [
     .assignExprP 3 "i" (.binOp .add (.name "i") (.const (.intL 1))),
     .continueP 4],
  .passP 5]

def c5blk : Blk := blkOrJunk (parsePgm c5src)

def c5ctfs : Ctfs := ctfsOrJunk (getCtfs c5blk)

def c5P : Pgm := pgmOrJunk (createState c5blk)

/-- A state that has advanced past the last top-level line (5) to the
sentinel line 6. -/
def c5sFinal : StateD := ⟨[(0, [])], [], [⟨6, 0⟩]⟩

/-- Witness for C5 on a concrete program: the sentinel `next[6] = 6` is
emitted and the state sitting at line 6 is final. -/
theorem C5_witness :
    lookupKey c5ctfs.nextTbl 6 = some 6 ∧ isFinal c5P c5sFinal = true := by
  constructor
  · exact C5_is_final_fixed_point.2.1 c5blk c5ctfs rfl
  · exact C5_is_final_fixed_point.2.2 c5blk c5ctfs c5P c5sFinal ⟨6, 0⟩ [] rfl rfl rfl rfl

/-! ## Claim C3 — characterisation of `lookup_env` -/

/-- The resolver exactly as the claim's scope table words it: climb to
the enclosing lexical block; top-level or `global` names use `envs[0]`;
`nonlocal` names use the first environment containing the name among the
chain entries strictly between the current and the last one
(`chain[1..len-1]`); otherwise the first environment on the whole chain
containing the name; a global/nonlocal conflict and an unsuccessful
search are errors. Written from the claim for comparison with the
source-derived `lookupEnvId`. -/
def lookupEnvSpec (s : StateD) (loc : LocStmt) (var : String) : Except Err Nat :=
  match s.stack with
  | [] => .error .emptyStack
  | ctx :: _ =>
    let lex := enclLexical loc.blk loc.ancs
    let blk := lex.1
    let chain := getParentChain s.edges ctx.envId
    let containsVar : Nat → Bool := fun id =>
      match lookupKey s.envs id with
      | some env => hasKey env var
      | Option.none => false
    if var ∈ blk.gbls ∧ var ∈ blk.nonlcls then .error (.scopeConflict var)
    else if lex.2.isEmpty ∨ var ∈ blk.gbls then .ok 0
    else if var ∈ blk.nonlcls then
      match ((chain.drop 1).dropLast).find? containsVar with
      | some id => .ok id
      | Option.none => .error (.lookupFailure var)
    else
      match chain.find? containsVar with
      | some id => .ok id
      | Option.none => .error (.lookupFailure var)

theorem fetchEnvs_eq (envs : List (Nat × EnvMap)) (ids : List Nat)
    (h : ∀ id ∈ ids, (lookupKey envs id).isSome = true) :
    fetchEnvs envs ids = .ok (ids.map fun id => (id, (lookupKey envs id).getD [])) := by
  induction ids with
  | nil => simp [fetchEnvs]
  | cons id rest ih =>
      have hid := h id (List.mem_cons_self id rest)
      obtain ⟨env, heq⟩ := Option.isSome_iff_exists.mp hid
      have hrest := ih (fun i hi => h i (List.mem_cons_of_mem id hi))
      simp [fetchEnvs, heq, hrest, Except.map]

theorem findWithVar_map (envs : List (Nat × EnvMap)) (var : String) :
    ∀ ids2 : List Nat,
      findWithVar var (ids2.map fun id => (id, (lookupKey envs id).getD [])) =
        (match ids2.find? (fun id =>
            match lookupKey envs id with
            | some env => hasKey env var
            | Option.none => false) with
         | some id => .ok id
         | Option.none => .error (.lookupFailure var)) := by
  intro ids2
  induction ids2 with
  | nil => simp [findWithVar, List.find?]
  | cons id rest ih =>
      have hiff : hasKey ((lookupKey envs id).getD []) var =
          (match lookupKey envs id with
           | some env => hasKey env var
           | Option.none => false) := by
        cases he : lookupKey envs id with
        | none => simp [hasKey, lookupKey]
        | some env => simp
      by_cases hc : hasKey ((lookupKey envs id).getD []) var = true
      · simp only [List.map_cons, findWithVar, hc, if_true, List.find?]
        rw [← hiff, hc]
      · rw [Bool.not_eq_true] at hc
        simp only [List.map_cons, findWithVar, hc, Bool.false_eq_true, if_false, List.find?]
        rw [← hiff, hc, ih]

/-- C3: the source resolver `lookup_env` agrees, case for case, with the
claim's scope table, on every state where the parent-chain environments
are all present in the store (which `lookup_env` otherwise reports as a
`KeyError` while building its environment list). -/
theorem C3_lookup_env_characterisation (s : StateD) (loc : LocStmt) (var : String)
    (ctx : Context) (rest : List Context) (hstack : s.stack = ctx :: rest)
    (hpresent : ∀ id ∈ getParentChain s.edges ctx.envId, (lookupKey s.envs id).isSome = true)
    (h0 : (lookupKey s.envs 0).isSome = true) :
    lookupEnvId s loc var = lookupEnvSpec s loc var := by
  unfold lookupEnvId lookupEnvSpec
  rw [hstack]
  simp only []
  rw [fetchEnvs_eq s.envs _ hpresent]
  simp only []
  split_ifs with h1 h2 h3
  · rfl
  · obtain ⟨env0, h0eq⟩ := Option.isSome_iff_exists.mp h0
    rw [h0eq]
  · rw [← List.map_drop, ← List.map_dropLast]
    exact findWithVar_map s.envs var _
  · exact findWithVar_map s.envs var _

/-- Concrete data for the C3 witness: a function-body lookup where the
name is declared `nonlocal` and found on the middle of the chain. -/
def c3state : StateD :=
  ⟨[(0, [("n", .int 0)]), (1, [("n", .int 1)]), (2, [])],
   [(1, 0), (2, 1)],
   [⟨3, 2⟩]⟩

/-- A located statement inside a function body whose lexical block
declares `n` nonlocal. -/
def c3loc : LocStmt :=
  ⟨.passS 3, 0, .mk true [] ["n"] [] [.passS 3], [⟨.defS 2 "g" [] junkBlk, 0, junkBlk⟩]⟩

/-- Witness for C3: the source resolver and the claim's table agree on a
concrete nonlocal lookup, resolving to environment 1 (the first chain
entry strictly between the current env 2 and the global env 0). -/
theorem C3_witness :
    lookupEnvId c3state c3loc "n" = lookupEnvSpec c3state c3loc "n"
    ∧ lookupEnvId c3state c3loc "n" = .ok 1 := by
  constructor
  · exact C3_lookup_env_characterisation c3state c3loc "n" ⟨3, 2⟩ [] rfl (by decide) (by decide)
  · rfl

/-! ## Machinery for the CTF-table claims (C6, C10)

`allLines` collects the head-instruction line of every statement in a
subtree; `nextKeyLines` the subset of lines at which the CTF walk may
emit a `next` entry (leaves other than `Ret`, and `def` heads — tests
get only `true`/`false` entries). -/

mutual
def Stmt.allLines : Stmt → List Nat
  | .ifS l _ b1 b2 => l :: (b1.allLines ++ b2.allLines)
  | .whileS l _ b => l :: b.allLines
  | .defS l _ _ b => l :: b.allLines
  | s => [s.lineno]

def Blk.allLines : Blk → List Nat
  | .mk _ _ _ _ stmts => stmtsAllLines stmts

def stmtsAllLines : List Stmt → List Nat
  | [] => []
  | s :: rest => s.allLines ++ stmtsAllLines rest
end

mutual
def Stmt.nextKeyLines : Stmt → List Nat
  | .ifS _ _ b1 b2 => b1.nextKeyLines ++ b2.nextKeyLines
  | .whileS _ _ b => b.nextKeyLines
  | .defS l _ _ b => l :: b.nextKeyLines
  | .retS _ _ => []
  | s => [s.lineno]

def Blk.nextKeyLines : Blk → List Nat
  | .mk _ _ _ _ stmts => stmtsNextKeyLines stmts

def stmtsNextKeyLines : List Stmt → List Nat
  | [] => []
  | s :: rest => s.nextKeyLines ++ stmtsNextKeyLines rest
end

/-- A statement located somewhere in a block, together with the ancestor
context that `instr_map` reaches through back-references. -/
inductive LocIn : List Anc → Blk → LocStmt → Prop where
  | here (ancs : List Anc) (blk : Blk) (i : Nat) (stmt : Stmt)
      (h : blk.stmts[i]? = some stmt) : LocIn ancs blk ⟨stmt, i, blk, ancs⟩
  | inIfTrue (ancs : List Anc) (blk : Blk) (i l : Nat) (e : Expr) (b1 b2 : Blk)
      (loc : LocStmt) (h : blk.stmts[i]? = some (.ifS l e b1 b2))
      (h2 : LocIn (⟨.ifS l e b1 b2, i, blk⟩ :: ancs) b1 loc) : LocIn ancs blk loc
  | inIfFalse (ancs : List Anc) (blk : Blk) (i l : Nat) (e : Expr) (b1 b2 : Blk)
      (loc : LocStmt) (h : blk.stmts[i]? = some (.ifS l e b1 b2))
      (h2 : LocIn (⟨.ifS l e b1 b2, i, blk⟩ :: ancs) b2 loc) : LocIn ancs blk loc
  | inWhile (ancs : List Anc) (blk : Blk) (i l : Nat) (e : Expr) (b : Blk)
      (loc : LocStmt) (h : blk.stmts[i]? = some (.whileS l e b))
      (h2 : LocIn (⟨.whileS l e b, i, blk⟩ :: ancs) b loc) : LocIn ancs blk loc
  | inDef (ancs : List Anc) (blk : Blk) (i l : Nat) (fv : String) (fs : List String)
      (b : Blk) (loc : LocStmt) (h : blk.stmts[i]? = some (.defS l fv fs b))
      (h2 : LocIn (⟨.defS l fv fs b, i, blk⟩ :: ancs) b loc) : LocIn ancs blk loc

/-- Lookups at key `k` agree between two CTF tables. -/
def PresK (t1 t2 : Ctfs) (k : Nat) : Prop :=
  lookupKey t2.nextTbl k = lookupKey t1.nextTbl k ∧
  lookupKey t2.trueTbl k = lookupKey t1.trueTbl k ∧
  lookupKey t2.falseTbl k = lookupKey t1.falseTbl k

theorem PresK_rfl (t : Ctfs) (k : Nat) : PresK t t k := ⟨rfl, rfl, rfl⟩

theorem PresK_trans {t1 t2 t3 : Ctfs} {k : Nat}
    (a : PresK t1 t2 k) (b : PresK t2 t3 k) : PresK t1 t3 k :=
  ⟨b.1.trans a.1, b.2.1.trans a.2.1, b.2.2.trans a.2.2⟩

/-- The statements of `visit`-preservation, one per function of the
mutual walk: a successful visit leaves every table lookup outside the
subtree's lines untouched. -/
def PresAll1 (ancs : List Anc) (blk : Blk) (idx : Nat) (stmt : Stmt) (tbl : Ctfs) : Prop :=
  ∀ tbl2 k, visitStmt ancs blk idx stmt tbl = .ok tbl2 → k ∉ stmt.allLines → PresK tbl tbl2 k

def PresAll2 (ancs : List Anc) (b : Blk) (tbl : Ctfs) : Prop :=
  ∀ tbl2 k, visitBlk ancs b tbl = .ok tbl2 → k ∉ b.allLines → PresK tbl tbl2 k

def PresAll3 (ancs : List Anc) (blk : Blk) (idx : Nat) (rest : List Stmt) (tbl : Ctfs) : Prop :=
  ∀ tbl2 k, visitStmts ancs blk idx rest tbl = .ok tbl2 → k ∉ stmtsAllLines rest → PresK tbl tbl2 k

/-- Preservation for the statement-list walk: joint functional induction
over the mutual `visit` functions. -/
theorem visitStmts_presAll : ∀ ancs blk idx rest tbl, PresAll3 ancs blk idx rest tbl := by
  refine visitStmts.induct PresAll1 PresAll2 PresAll3 ?_ ?_ ?_ ?_ ?_ ?_ ?_ ?_
  · -- ifS
    intro ancs blk idx tbl l e b1 b2 ih1 ih2
    intro tbl2 k hv hk
    unfold visitStmt at hv
    simp only [bind, Except.bind] at hv
    cases ht : stfTrue (.ifS l e b1 b2) with
    | error er => simp only [ht] at hv; exact absurd hv (by simp)
    | ok t =>
      simp only [ht] at hv
      cases hf : stfFalse (.ifS l e b1 b2) idx blk ancs with
      | error er => simp only [hf] at hv; exact absurd hv (by simp)
      | ok f =>
        simp only [hf] at hv
        cases hb1 : visitBlk (⟨.ifS l e b1 b2, idx, blk⟩ :: ancs) b1
            { tbl with trueTbl := bindKey tbl.trueTbl l t.lineno,
                       falseTbl := bindKey tbl.falseTbl l f.lineno } with
        | error er => simp only [hb1] at hv; exact absurd hv (by simp)
        | ok tC =>
          simp only [hb1] at hv
          simp only [Stmt.allLines, List.mem_cons, List.mem_append] at hk
          push_neg at hk
          obtain ⟨hkl, hk1, hk2⟩ := hk
          have p1 : PresK tbl
              { tbl with trueTbl := bindKey tbl.trueTbl l t.lineno,
                         falseTbl := bindKey tbl.falseTbl l f.lineno } k :=
            ⟨rfl, lookupKey_bindKey_ne _ _ _ _ hkl, lookupKey_bindKey_ne _ _ _ _ hkl⟩
          have p2 := ih1 t f tC k hb1 hk1
          have p3 := ih2 tC tbl2 k hv hk2
          exact PresK_trans (PresK_trans p1 p2) p3
  · -- whileS
    intro ancs blk idx tbl l e body ih
    intro tbl2 k hv hk
    unfold visitStmt at hv
    simp only [bind, Except.bind] at hv
    cases ht : stfTrue (.whileS l e body) with
    | error er => simp only [ht] at hv; exact absurd hv (by simp)
    | ok t =>
      simp only [ht] at hv
      cases hf : stfFalse (.whileS l e body) idx blk ancs with
      | error er => simp only [hf] at hv; exact absurd hv (by simp)
      | ok f =>
        simp only [hf] at hv
        simp only [Stmt.allLines, List.mem_cons] at hk
        push_neg at hk
        obtain ⟨hkl, hk1⟩ := hk
        have p1 : PresK tbl
            { tbl with trueTbl := bindKey tbl.trueTbl l t.lineno,
                       falseTbl := bindKey tbl.falseTbl l f.lineno } k :=
          ⟨rfl, lookupKey_bindKey_ne _ _ _ _ hkl, lookupKey_bindKey_ne _ _ _ _ hkl⟩
        have p2 := ih t f tbl2 k hv hk1
        exact PresK_trans p1 p2
  · -- defS
    intro ancs blk idx tbl l fv formals body ih
    intro tbl2 k hv hk
    unfold visitStmt at hv
    simp only [bind, Except.bind] at hv
    cases hn : stfNext (.defS l fv formals body) idx blk ancs with
    | error er => simp only [hn] at hv; exact absurd hv (by simp)
    | ok n =>
      simp only [hn] at hv
      simp only [Stmt.allLines, List.mem_cons] at hk
      push_neg at hk
      obtain ⟨hkl, hk1⟩ := hk
      have p1 : PresK tbl { tbl with nextTbl := bindKey tbl.nextTbl l n.lineno } k :=
        ⟨lookupKey_bindKey_ne _ _ _ _ hkl, rfl, rfl⟩
      have p2 := ih n tbl2 k hv hk1
      exact PresK_trans p1 p2
  · -- retS
    intro ancs blk idx tbl l e
    intro tbl2 k hv _
    unfold visitStmt at hv
    cases hv
    exact PresK_rfl _ _
  · -- other leaves
    intro ancs blk idx tbl leaf hn1 hn2 hn3 hn4
    intro tbl2 k hv hk
    cases leaf with
    | ifS l e b1 b2 => exact (hn1 l e b1 b2 rfl).elim
    | whileS l e b => exact (hn2 l e b rfl).elim
    | defS l fv fs b => exact (hn3 l fv fs b rfl).elim
    | retS l e => exact (hn4 l e rfl).elim
    | passS l =>
        unfold visitStmt at hv
        simp only [bind, Except.bind] at hv
        cases hnx : stfNext (.passS l) idx blk ancs with
        | error er => simp only [hnx] at hv; exact absurd hv (by simp)
        | ok n =>
          simp only [hnx] at hv
          cases hv
          simp only [Stmt.allLines, Stmt.lineno, List.mem_singleton] at hk
          exact ⟨lookupKey_bindKey_ne _ _ _ _ hk, rfl, rfl⟩
    | globalS l vs =>
        unfold visitStmt at hv
        simp only [bind, Except.bind] at hv
        cases hnx : stfNext (.globalS l vs) idx blk ancs with
        | error er => simp only [hnx] at hv; exact absurd hv (by simp)
        | ok n =>
          simp only [hnx] at hv
          cases hv
          simp only [Stmt.allLines, Stmt.lineno, List.mem_singleton] at hk
          exact ⟨lookupKey_bindKey_ne _ _ _ _ hk, rfl, rfl⟩
    | nonlocalS l vs =>
        unfold visitStmt at hv
        simp only [bind, Except.bind] at hv
        cases hnx : stfNext (.nonlocalS l vs) idx blk ancs with
        | error er => simp only [hnx] at hv; exact absurd hv (by simp)
        | ok n =>
          simp only [hnx] at hv
          cases hv
          simp only [Stmt.allLines, Stmt.lineno, List.mem_singleton] at hk
          exact ⟨lookupKey_bindKey_ne _ _ _ _ hk, rfl, rfl⟩
    | exprAssign l v e =>
        unfold visitStmt at hv
        simp only [bind, Except.bind] at hv
        cases hnx : stfNext (.exprAssign l v e) idx blk ancs with
        | error er => simp only [hnx] at hv; exact absurd hv (by simp)
        | ok n =>
          simp only [hnx] at hv
          cases hv
          simp only [Stmt.allLines, Stmt.lineno, List.mem_singleton] at hk
          exact ⟨lookupKey_bindKey_ne _ _ _ _ hk, rfl, rfl⟩
    | callAssign l v fv args =>
        unfold visitStmt at hv
        simp only [bind, Except.bind] at hv
        cases hnx : stfNext (.callAssign l v fv args) idx blk ancs with
        | error er => simp only [hnx] at hv; exact absurd hv (by simp)
        | ok n =>
          simp only [hnx] at hv
          cases hv
          simp only [Stmt.allLines, Stmt.lineno, List.mem_singleton] at hk
          exact ⟨lookupKey_bindKey_ne _ _ _ _ hk, rfl, rfl⟩
    | breakS l =>
        unfold visitStmt at hv
        simp only [bind, Except.bind] at hv
        cases hnx : stfNext (.breakS l) idx blk ancs with
        | error er => simp only [hnx] at hv; exact absurd hv (by simp)
        | ok n =>
          simp only [hnx] at hv
          cases hv
          simp only [Stmt.allLines, Stmt.lineno, List.mem_singleton] at hk
          exact ⟨lookupKey_bindKey_ne _ _ _ _ hk, rfl, rfl⟩
    | continueS l =>
        unfold visitStmt at hv
        simp only [bind, Except.bind] at hv
        cases hnx : stfNext (.continueS l) idx blk ancs with
        | error er => simp only [hnx] at hv; exact absurd hv (by simp)
        | ok n =>
          simp only [hnx] at hv
          cases hv
          simp only [Stmt.allLines, Stmt.lineno, List.mem_singleton] at hk
          exact ⟨lookupKey_bindKey_ne _ _ _ _ hk, rfl, rfl⟩
  · -- visitBlk
    intro ancs tbl lexical lcls nonlcls gbls s ih
    intro tbl2 k hv hk
    unfold visitBlk at hv
    exact ih tbl2 k hv (by simpa [Blk.allLines] using hk)
  · -- visitStmts nil
    intro ancs blk idx tbl
    intro tbl2 k hv _
    unfold visitStmts at hv
    cases hv
    exact PresK_rfl _ _
  · -- visitStmts cons
    intro ancs blk idx tbl stmt rest2 ih1 ih3
    intro tbl2 k hv hk
    unfold visitStmts at hv
    simp only [bind, Except.bind] at hv
    cases h1 : visitStmt ancs blk idx stmt tbl with
    | error er => simp only [h1] at hv; exact absurd hv (by simp)
    | ok tB =>
      simp only [h1] at hv
      simp only [stmtsAllLines, List.mem_append] at hk
      push_neg at hk
      exact PresK_trans (ih1 tB k h1 hk.1) (ih3 tB tbl2 k hv hk.2)

/-- Preservation for a whole block visit. -/
theorem visitBlk_presAll (ancs : List Anc) (b : Blk) (tbl tbl2 : Ctfs) (k : Nat)
    (hv : visitBlk ancs b tbl = .ok tbl2) (hk : k ∉ b.allLines) : PresK tbl tbl2 k := by
  cases b with
  | mk lex a c d stmts =>
      unfold visitBlk at hv
      exact visitStmts_presAll ancs _ 0 stmts tbl tbl2 k hv
        (by simpa [Blk.allLines] using hk)

/-- Statements of `next`-table preservation outside `nextKeyLines`. -/
def PresN1 (ancs : List Anc) (blk : Blk) (idx : Nat) (stmt : Stmt) (tbl : Ctfs) : Prop :=
  ∀ tbl2 k, visitStmt ancs blk idx stmt tbl = .ok tbl2 → k ∉ stmt.nextKeyLines →
    lookupKey tbl2.nextTbl k = lookupKey tbl.nextTbl k

def PresN2 (ancs : List Anc) (b : Blk) (tbl : Ctfs) : Prop :=
  ∀ tbl2 k, visitBlk ancs b tbl = .ok tbl2 → k ∉ b.nextKeyLines →
    lookupKey tbl2.nextTbl k = lookupKey tbl.nextTbl k

def PresN3 (ancs : List Anc) (blk : Blk) (idx : Nat) (rest : List Stmt) (tbl : Ctfs) : Prop :=
  ∀ tbl2 k, visitStmts ancs blk idx rest tbl = .ok tbl2 → k ∉ stmtsNextKeyLines rest →
    lookupKey tbl2.nextTbl k = lookupKey tbl.nextTbl k

/-- The CTF walk inserts `next` entries only at lines in `nextKeyLines`. -/
theorem visitStmts_presNext : ∀ ancs blk idx rest tbl, PresN3 ancs blk idx rest tbl := by
  refine visitStmts.induct PresN1 PresN2 PresN3 ?_ ?_ ?_ ?_ ?_ ?_ ?_ ?_
  · -- ifS
    intro ancs blk idx tbl l e b1 b2 ih1 ih2
    intro tbl2 k hv hk
    unfold visitStmt at hv
    simp only [bind, Except.bind] at hv
    cases ht : stfTrue (.ifS l e b1 b2) with
    | error er => simp only [ht] at hv; exact absurd hv (by simp)
    | ok t =>
      simp only [ht] at hv
      cases hf : stfFalse (.ifS l e b1 b2) idx blk ancs with
      | error er => simp only [hf] at hv; exact absurd hv (by simp)
      | ok f =>
        simp only [hf] at hv
        cases hb1 : visitBlk (⟨.ifS l e b1 b2, idx, blk⟩ :: ancs) b1
            { tbl with trueTbl := bindKey tbl.trueTbl l t.lineno,
                       falseTbl := bindKey tbl.falseTbl l f.lineno } with
        | error er => simp only [hb1] at hv; exact absurd hv (by simp)
        | ok tC =>
          simp only [hb1] at hv
          simp only [Stmt.nextKeyLines, List.mem_append] at hk
          push_neg at hk
          exact (ih2 tC tbl2 k hv hk.2).trans (ih1 t f tC k hb1 hk.1)
  · -- whileS
    intro ancs blk idx tbl l e body ih
    intro tbl2 k hv hk
    unfold visitStmt at hv
    simp only [bind, Except.bind] at hv
    cases ht : stfTrue (.whileS l e body) with
    | error er => simp only [ht] at hv; exact absurd hv (by simp)
    | ok t =>
      simp only [ht] at hv
      cases hf : stfFalse (.whileS l e body) idx blk ancs with
      | error er => simp only [hf] at hv; exact absurd hv (by simp)
      | ok f =>
        simp only [hf] at hv
        simp only [Stmt.nextKeyLines] at hk
        exact ih t f tbl2 k hv hk
  · -- defS
    intro ancs blk idx tbl l fv formals body ih
    intro tbl2 k hv hk
    unfold visitStmt at hv
    simp only [bind, Except.bind] at hv
    cases hn : stfNext (.defS l fv formals body) idx blk ancs with
    | error er => simp only [hn] at hv; exact absurd hv (by simp)
    | ok n =>
      simp only [hn] at hv
      simp only [Stmt.nextKeyLines, List.mem_cons] at hk
      push_neg at hk
      exact (ih n tbl2 k hv hk.2).trans (lookupKey_bindKey_ne _ _ _ _ hk.1)
  · -- retS
    intro ancs blk idx tbl l e
    intro tbl2 k hv _
    unfold visitStmt at hv
    cases hv
    rfl
  · -- other leaves
    intro ancs blk idx tbl leaf hn1 hn2 hn3 hn4
    intro tbl2 k hv hk
    cases leaf with
    | ifS l e b1 b2 => exact (hn1 l e b1 b2 rfl).elim
    | whileS l e b => exact (hn2 l e b rfl).elim
    | defS l fv fs b => exact (hn3 l fv fs b rfl).elim
    | retS l e => exact (hn4 l e rfl).elim
    | passS l =>
        unfold visitStmt at hv
        simp only [bind, Except.bind] at hv
        cases hnx : stfNext (.passS l) idx blk ancs with
        | error er => simp only [hnx] at hv; exact absurd hv (by simp)
        | ok n =>
          simp only [hnx] at hv
          cases hv
          simp only [Stmt.nextKeyLines, Stmt.lineno, List.mem_singleton] at hk
          exact lookupKey_bindKey_ne _ _ _ _ hk
    | globalS l vs =>
        unfold visitStmt at hv
        simp only [bind, Except.bind] at hv
        cases hnx : stfNext (.globalS l vs) idx blk ancs with
        | error er => simp only [hnx] at hv; exact absurd hv (by simp)
        | ok n =>
          simp only [hnx] at hv
          cases hv
          simp only [Stmt.nextKeyLines, Stmt.lineno, List.mem_singleton] at hk
          exact lookupKey_bindKey_ne _ _ _ _ hk
    | nonlocalS l vs =>
        unfold visitStmt at hv
        simp only [bind, Except.bind] at hv
        cases hnx : stfNext (.nonlocalS l vs) idx blk ancs with
        | error er => simp only [hnx] at hv; exact absurd hv (by simp)
        | ok n =>
          simp only [hnx] at hv
          cases hv
          simp only [Stmt.nextKeyLines, Stmt.lineno, List.mem_singleton] at hk
          exact lookupKey_bindKey_ne _ _ _ _ hk
    | exprAssign l v e =>
        unfold visitStmt at hv
        simp only [bind, Except.bind] at hv
        cases hnx : stfNext (.exprAssign l v e) idx blk ancs with
        | error er => simp only [hnx] at hv; exact absurd hv (by simp)
        | ok n =>
          simp only [hnx] at hv
          cases hv
          simp only [Stmt.nextKeyLines, Stmt.lineno, List.mem_singleton] at hk
          exact lookupKey_bindKey_ne _ _ _ _ hk
    | callAssign l v fv args =>
        unfold visitStmt at hv
        simp only [bind, Except.bind] at hv
        cases hnx : stfNext (.callAssign l v fv args) idx blk ancs with
        | error er => simp only [hnx] at hv; exact absurd hv (by simp)
        | ok n =>
          simp only [hnx] at hv
          cases hv
          simp only [Stmt.nextKeyLines, Stmt.lineno, List.mem_singleton] at hk
          exact lookupKey_bindKey_ne _ _ _ _ hk
    | breakS l =>
        unfold visitStmt at hv
        simp only [bind, Except.bind] at hv
        cases hnx : stfNext (.breakS l) idx blk ancs with
        | error er => simp only [hnx] at hv; exact absurd hv (by simp)
        | ok n =>
          simp only [hnx] at hv
          cases hv
          simp only [Stmt.nextKeyLines, Stmt.lineno, List.mem_singleton] at hk
          exact lookupKey_bindKey_ne _ _ _ _ hk
    | continueS l =>
        unfold visitStmt at hv
        simp only [bind, Except.bind] at hv
        cases hnx : stfNext (.continueS l) idx blk ancs with
        | error er => simp only [hnx] at hv; exact absurd hv (by simp)
        | ok n =>
          simp only [hnx] at hv
          cases hv
          simp only [Stmt.nextKeyLines, Stmt.lineno, List.mem_singleton] at hk
          exact lookupKey_bindKey_ne _ _ _ _ hk
  · -- visitBlk
    intro ancs tbl lexical lcls nonlcls gbls s ih
    intro tbl2 k hv hk
    unfold visitBlk at hv
    exact ih tbl2 k hv (by simpa [Blk.nextKeyLines] using hk)
  · -- visitStmts nil
    intro ancs blk idx tbl
    intro tbl2 k hv _
    unfold visitStmts at hv
    cases hv
    rfl
  · -- visitStmts cons
    intro ancs blk idx tbl stmt rest2 ih1 ih3
    intro tbl2 k hv hk
    unfold visitStmts at hv
    simp only [bind, Except.bind] at hv
    cases h1 : visitStmt ancs blk idx stmt tbl with
    | error er => simp only [h1] at hv; exact absurd hv (by simp)
    | ok tB =>
      simp only [h1] at hv
      simp only [stmtsNextKeyLines, List.mem_append] at hk
      push_neg at hk
      exact (ih3 tB tbl2 k hv hk.2).trans (ih1 tB k h1 hk.1)

theorem visitBlk_presNext (ancs : List Anc) (b : Blk) (tbl tbl2 : Ctfs) (k : Nat)
    (hv : visitBlk ancs b tbl = .ok tbl2) (hk : k ∉ b.nextKeyLines) :
    lookupKey tbl2.nextTbl k = lookupKey tbl.nextTbl k := by
  cases b with
  | mk lex a c d stmts =>
      unfold visitBlk at hv
      exact visitStmts_presNext ancs _ 0 stmts tbl tbl2 k hv
        (by simpa [Blk.nextKeyLines] using hk)

/-- Every statement's own line is among its `allLines`. -/
theorem lineno_mem_allLines (stmt : Stmt) : stmt.lineno ∈ stmt.allLines := by
  cases stmt <;> simp [Stmt.allLines, Stmt.lineno]

def SubN1 (stmt : Stmt) : Prop := ∀ k, k ∈ stmt.nextKeyLines → k ∈ stmt.allLines

def SubN2 (b : Blk) : Prop := ∀ k, k ∈ b.nextKeyLines → k ∈ b.allLines

def SubN3 (rest : List Stmt) : Prop := ∀ k, k ∈ stmtsNextKeyLines rest → k ∈ stmtsAllLines rest

/-- `nextKeyLines` is a subset of `allLines`, at each of the three levels. -/
theorem stmtsNextKeyLines_subset : ∀ rest : List Stmt, SubN3 rest := by
  refine stmtsNextKeyLines.induct SubN1 SubN2 SubN3 ?_ ?_ ?_ ?_ ?_ ?_ ?_ ?_
  · intro l e b1 b2 ih1 ih2 k hk
    simp only [Stmt.nextKeyLines, List.mem_append] at hk
    simp only [Stmt.allLines, List.mem_cons, List.mem_append]
    rcases hk with h | h
    · exact Or.inr (Or.inl (ih1 k h))
    · exact Or.inr (Or.inr (ih2 k h))
  · intro l e b ih k hk
    simp only [Stmt.nextKeyLines] at hk
    simp only [Stmt.allLines, List.mem_cons]
    exact Or.inr (ih k hk)
  · intro l fv fs b ih k hk
    simp only [Stmt.nextKeyLines, List.mem_cons] at hk
    simp only [Stmt.allLines, List.mem_cons]
    rcases hk with h | h
    · exact Or.inl h
    · exact Or.inr (ih k h)
  · intro l e k hk
    simp [Stmt.nextKeyLines] at hk
  · intro s hn1 hn2 hn3 hn4 k hk
    cases s with
    | ifS l e b1 b2 => exact (hn1 l e b1 b2 rfl).elim
    | whileS l e b => exact (hn2 l e b rfl).elim
    | defS l fv fs b => exact (hn3 l fv fs b rfl).elim
    | retS l e => exact (hn4 l e rfl).elim
    | passS l => exact hk
    | globalS l vs => exact hk
    | nonlocalS l vs => exact hk
    | exprAssign l v e => exact hk
    | callAssign l v fv args => exact hk
    | breakS l => exact hk
    | continueS l => exact hk
  · intro lex a c d stmts ih k hk
    simp only [Blk.nextKeyLines] at hk
    simp only [Blk.allLines]
    exact ih k hk
  · intro k hk
    simp [stmtsNextKeyLines] at hk
  · intro s rest ih1 ih3 k hk
    simp only [stmtsNextKeyLines, List.mem_append] at hk
    simp only [stmtsAllLines, List.mem_append]
    rcases hk with h | h
    · exact Or.inl (ih1 k h)
    · exact Or.inr (ih3 k h)

theorem Stmt_nextKeyLines_subset (stmt : Stmt) : SubN1 stmt := by
  intro k hk
  have := stmtsNextKeyLines_subset [stmt] k
  simp only [stmtsNextKeyLines, stmtsAllLines, List.append_nil] at this
  exact this hk

theorem Blk_nextKeyLines_subset (b : Blk) : SubN2 b := by
  cases b with
  | mk lex a c d stmts =>
      intro k hk
      simp only [Blk.nextKeyLines] at hk
      simp only [Blk.allLines]
      exact stmtsNextKeyLines_subset stmts k hk

/-- `allLines` and `nextKeyLines` of a list split around a member. -/
theorem stmtsAllLines_decomp :
    ∀ (stmts : List Stmt) (i : Nat) (stmt : Stmt), stmts[i]? = some stmt →
      stmtsAllLines stmts =
        stmtsAllLines (stmts.take i) ++
          (stmt.allLines ++ stmtsAllLines (stmts.drop (i + 1))) := by
  intro stmts
  induction stmts with
  | nil => intro i stmt h; simp at h
  | cons s rest ih =>
      intro i stmt h
      cases i with
      | zero =>
          simp only [List.getElem?_cons_zero, Option.some.injEq] at h
          subst h
          simp [stmtsAllLines]
      | succ j =>
          simp only [List.getElem?_cons_succ] at h
          have := ih j stmt h
          simp [stmtsAllLines, this, List.take_succ_cons, List.drop_succ_cons]

theorem stmtsNextKeyLines_decomp :
    ∀ (stmts : List Stmt) (i : Nat) (stmt : Stmt), stmts[i]? = some stmt →
      stmtsNextKeyLines stmts =
        stmtsNextKeyLines (stmts.take i) ++
          (stmt.nextKeyLines ++ stmtsNextKeyLines (stmts.drop (i + 1))) := by
  intro stmts
  induction stmts with
  | nil => intro i stmt h; simp at h
  | cons s rest ih =>
      intro i stmt h
      cases i with
      | zero =>
          simp only [List.getElem?_cons_zero, Option.some.injEq] at h
          subst h
          simp [stmtsNextKeyLines]
      | succ j =>
          simp only [List.getElem?_cons_succ] at h
          have := ih j stmt h
          simp [stmtsNextKeyLines, this, List.take_succ_cons, List.drop_succ_cons]

/-- A located statement's line occurs among the lines of the block it
lives in. -/
theorem LocIn_mem {ancs : List Anc} {b : Blk} {loc : LocStmt}
    (h : LocIn ancs b loc) : loc.stmt.lineno ∈ b.allLines := by
  induction h with
  | here ancs blk i stmt h =>
      cases blk with
      | mk lex a c d stmts =>
          simp only [Blk.allLines]
          rw [stmtsAllLines_decomp stmts i stmt (by simpa using h)]
          simp [lineno_mem_allLines]
  | inIfTrue ancs blk i l e b1 b2 loc h h2 ih =>
      cases blk with
      | mk lex a c d stmts =>
          simp only [Blk.allLines]
          rw [stmtsAllLines_decomp stmts i _ (by simpa using h)]
          simp only [Stmt.allLines, List.mem_append, List.mem_cons]
          exact Or.inr (Or.inl (Or.inr (Or.inl ih)))
  | inIfFalse ancs blk i l e b1 b2 loc h h2 ih =>
      cases blk with
      | mk lex a c d stmts =>
          simp only [Blk.allLines]
          rw [stmtsAllLines_decomp stmts i _ (by simpa using h)]
          simp only [Stmt.allLines, List.mem_append, List.mem_cons]
          exact Or.inr (Or.inl (Or.inr (Or.inr ih)))
  | inWhile ancs blk i l e b loc h h2 ih =>
      cases blk with
      | mk lex a c d stmts =>
          simp only [Blk.allLines]
          rw [stmtsAllLines_decomp stmts i _ (by simpa using h)]
          simp only [Stmt.allLines, List.mem_append, List.mem_cons]
          exact Or.inr (Or.inl (Or.inr ih))
  | inDef ancs blk i l fv fs b loc h h2 ih =>
      cases blk with
      | mk lex a c d stmts =>
          simp only [Blk.allLines]
          rw [stmtsAllLines_decomp stmts i _ (by simpa using h)]
          simp only [Stmt.allLines, List.mem_append, List.mem_cons]
          exact Or.inr (Or.inl (Or.inr ih))

/-- Splitting lemma for the statement-list walk: a successful visit of a
list factors through any member, with the visits of the prefix and the
suffix on either side. -/
theorem visitStmts_split :
    ∀ (rest : List Stmt) (j : Nat) (stmt : Stmt) (ancs : List Anc) (blk : Blk)
      (idx : Nat) (tbl tbl2 : Ctfs),
      rest[j]? = some stmt → visitStmts ancs blk idx rest tbl = .ok tbl2 →
      ∃ tA tB, visitStmts ancs blk idx (rest.take j) tbl = .ok tA ∧
        visitStmt ancs blk (idx + j) stmt tA = .ok tB ∧
        visitStmts ancs blk (idx + j + 1) (rest.drop (j + 1)) tB = .ok tbl2 := by
  intro rest
  induction rest with
  | nil => intro j stmt ancs blk idx tbl tbl2 hj; simp at hj
  | cons s rest2 ih =>
      intro j stmt ancs blk idx tbl tbl2 hj hv
      unfold visitStmts at hv
      simp only [bind, Except.bind] at hv
      cases h1 : visitStmt ancs blk idx s tbl with
      | error er => simp only [h1] at hv; exact absurd hv (by simp)
      | ok tB =>
        simp only [h1] at hv
        cases j with
        | zero =>
            simp only [List.getElem?_cons_zero, Option.some.injEq] at hj
            subst hj
            exact ⟨tbl, tB, by unfold visitStmts; simp,
              by simpa using h1, by simpa using hv⟩
        | succ j2 =>
            simp only [List.getElem?_cons_succ] at hj
            obtain ⟨tA, tB2, h0, ha, hb⟩ := ih j2 stmt ancs blk (idx + 1) tB tbl2 hj hv
            refine ⟨tA, tB2, ?_, ?_, ?_⟩
            · unfold visitStmts
              simp only [bind, Except.bind, List.take_succ_cons, h1]
              exact h0
            · have harith : idx + 1 + j2 = idx + (j2 + 1) := by omega
              rw [← harith]
              exact ha
            · have harith : idx + 1 + j2 + 1 = idx + (j2 + 1) + 1 := by omega
              rw [← harith]
              simpa using hb

/-- Fuel-irrelevance of the `STF.next` recursion: any fuel strictly
above the ancestor-list length computes the same answer. -/
theorem stfNextAux_congr :
    ∀ (n : Nat) (ancs : List Anc), ancs.length ≤ n →
      ∀ (f1 f2 : Nat) (stmt : Stmt) (idx : Nat) (blk : Blk),
        ancs.length < f1 → ancs.length < f2 →
        stfNextAux f1 stmt idx blk ancs = stfNextAux f2 stmt idx blk ancs := by
  intro n
  induction n with
  | zero =>
      intro ancs hlen f1 f2 stmt idx blk h1 h2
      have hnil : ancs = [] := List.eq_nil_of_length_eq_zero (Nat.le_zero.mp hlen)
      subst hnil
      cases f1 with
      | zero => omega
      | succ g1 =>
        cases f2 with
        | zero => omega
        | succ g2 =>
          cases stmt <;> simp [stfNextAux, enclWhile]
  | succ m ih =>
      intro ancs hlen f1 f2 stmt idx blk h1 h2
      cases f1 with
      | zero => omega
      | succ g1 =>
        cases f2 with
        | zero => omega
        | succ g2 =>
          cases stmt with
          | continueS l => simp [stfNextAux]
          | breakS l =>
              simp only [stfNextAux]
              cases hw : enclWhile ancs with
              | error er => rfl
              | ok r =>
                  obtain ⟨w, wi, wb, wa⟩ := r
                  have hlt := enclWhile_length_lt ancs w wi wb wa hw
                  exact ih wa (by omega) g1 g2 w wi wb (by omega) (by omega)
          | retS l e => simp [stfNextAux]
          | passS l =>
              simp only [stfNextAux]
              cases ancs with
              | nil => rfl
              | cons a rest =>
                  simp only [List.length_cons] at h1 h2 hlen
                  by_cases hlast : idx + 1 == blk.stmts.length
                  · simp only [hlast]
                    exact ih rest (by omega) g1 g2 a.stmt a.idx a.blk (by omega) (by omega)
                  · simp [hlast]
          | globalS l vs =>
              simp only [stfNextAux]
              cases ancs with
              | nil => rfl
              | cons a rest =>
                  simp only [List.length_cons] at h1 h2 hlen
                  by_cases hlast : idx + 1 == blk.stmts.length
                  · simp only [hlast]
                    exact ih rest (by omega) g1 g2 a.stmt a.idx a.blk (by omega) (by omega)
                  · simp [hlast]
          | nonlocalS l vs =>
              simp only [stfNextAux]
              cases ancs with
              | nil => rfl
              | cons a rest =>
                  simp only [List.length_cons] at h1 h2 hlen
                  by_cases hlast : idx + 1 == blk.stmts.length
                  · simp only [hlast]
                    exact ih rest (by omega) g1 g2 a.stmt a.idx a.blk (by omega) (by omega)
                  · simp [hlast]
          | exprAssign l v e =>
              simp only [stfNextAux]
              cases ancs with
              | nil => rfl
              | cons a rest =>
                  simp only [List.length_cons] at h1 h2 hlen
                  by_cases hlast : idx + 1 == blk.stmts.length
                  · simp only [hlast]
                    exact ih rest (by omega) g1 g2 a.stmt a.idx a.blk (by omega) (by omega)
                  · simp [hlast]
          | callAssign l v fv args =>
              simp only [stfNextAux]
              cases ancs with
              | nil => rfl
              | cons a rest =>
                  simp only [List.length_cons] at h1 h2 hlen
                  by_cases hlast : idx + 1 == blk.stmts.length
                  · simp only [hlast]
                    exact ih rest (by omega) g1 g2 a.stmt a.idx a.blk (by omega) (by omega)
                  · simp [hlast]
          | ifS l e b1 b2 =>
              simp only [stfNextAux]
              cases ancs with
              | nil => rfl
              | cons a rest =>
                  simp only [List.length_cons] at h1 h2 hlen
                  by_cases hlast : idx + 1 == blk.stmts.length
                  · simp only [hlast]
                    exact ih rest (by omega) g1 g2 a.stmt a.idx a.blk (by omega) (by omega)
                  · simp [hlast]
          | whileS l e b =>
              simp only [stfNextAux]
              cases ancs with
              | nil => rfl
              | cons a rest =>
                  simp only [List.length_cons] at h1 h2 hlen
                  by_cases hlast : idx + 1 == blk.stmts.length
                  · simp only [hlast]
                    exact ih rest (by omega) g1 g2 a.stmt a.idx a.blk (by omega) (by omega)
                  · simp [hlast]
          | defS l fv fs b =>
              simp only [stfNextAux]
              cases ancs with
              | nil => rfl
              | cons a rest =>
                  simp only [List.length_cons] at h1 h2 hlen
                  by_cases hlast : idx + 1 == blk.stmts.length
                  · simp only [hlast]
                    exact ih rest (by omega) g1 g2 a.stmt a.idx a.blk (by omega) (by omega)
                  · simp [hlast]

theorem stfNextAux_eq_stfNext (f : Nat) (stmt : Stmt) (idx : Nat) (blk : Blk)
    (ancs : List Anc) (h : ancs.length < f) :
    stfNextAux f stmt idx blk ancs = stfNext stmt idx blk ancs :=
  stfNextAux_congr ancs.length ancs (Nat.le_refl _) f (ancs.length + 1) stmt idx blk h
    (Nat.lt_succ_self _)

theorem nodup_decomp_pieces {A X B : List Nat} (h : (A ++ (X ++ B)).Nodup) :
    X.Nodup ∧ (∀ k ∈ X, k ∉ B) ∧ (∀ k ∈ X, k ∉ A) := by
  rw [List.nodup_append] at h
  obtain ⟨hA, hXB, hdisj⟩ := h
  rw [List.nodup_append] at hXB
  obtain ⟨hX, hB, hdisj2⟩ := hXB
  refine ⟨hX, fun k hk => hdisj2 hk, fun k hk hA2 => hdisj hA2 (List.mem_append_left B hk)⟩

theorem nodup_cons_append_pieces {l : Nat} {L1 L2 : List Nat}
    (h : (l :: (L1 ++ L2)).Nodup) :
    L1.Nodup ∧ L2.Nodup ∧ (∀ k ∈ L1, k ∉ L2) ∧ l ∉ L1 ∧ l ∉ L2 := by
  rw [List.nodup_cons] at h
  obtain ⟨hl, hL⟩ := h
  rw [List.nodup_append] at hL
  obtain ⟨h1, h2, hd⟩ := hL
  refine ⟨h1, h2, fun k hk => hd hk, fun hm => hl (List.mem_append_left L2 hm),
    fun hm => hl (List.mem_append_right L1 hm)⟩

/-- Locating lemma: if `loc` lies somewhere in the (duplicate-free)
block `b` and the CTF walk of `b` succeeds, then the final tables agree,
at `loc`'s own line, with the tables right after `loc`'s statement was
visited — so whatever entry that visit inserted survives. -/
theorem visitBlk_locates {ancs : List Anc} {b : Blk} {loc : LocStmt}
    (hloc : LocIn ancs b loc) :
    ∀ tbl tbl2, visitBlk ancs b tbl = .ok tbl2 → b.allLines.Nodup →
    ∃ tA tB, visitStmt loc.ancs loc.blk loc.idx loc.stmt tA = .ok tB ∧
      PresK tB tbl2 loc.stmt.lineno := by
  induction hloc with
  | here ancs blk i stmt h =>
      intro tbl tbl2 hv hnd
      cases blk with
      | mk lex a c d stmts =>
        unfold visitBlk at hv
        have hsome : stmts[i]? = some stmt := by simpa [Blk.stmts] using h
        obtain ⟨tA, tB, h0, ha, hb⟩ :=
          visitStmts_split stmts i stmt ancs _ 0 tbl tbl2 hsome hv
        rw [Nat.zero_add] at ha hb
        refine ⟨tA, tB, ha, ?_⟩
        have hdec := stmtsAllLines_decomp stmts i stmt hsome
        simp only [Blk.allLines] at hnd
        rw [hdec] at hnd
        obtain ⟨-, hXB, -⟩ := nodup_decomp_pieces hnd
        have hnotB := hXB stmt.lineno (lineno_mem_allLines stmt)
        exact visitStmts_presAll ancs _ (i + 1) (stmts.drop (i + 1)) tB tbl2
          stmt.lineno hb hnotB
  | inIfTrue ancs blk i l e b1 b2 loc h h2 ih =>
      intro tbl tbl2 hv hnd
      cases blk with
      | mk lex a c d stmts =>
        unfold visitBlk at hv
        have hsome : stmts[i]? = some (.ifS l e b1 b2) := by simpa [Blk.stmts] using h
        obtain ⟨tA, tB, h0, ha, hb⟩ :=
          visitStmts_split stmts i (.ifS l e b1 b2) ancs _ 0 tbl tbl2 hsome hv
        rw [Nat.zero_add] at ha hb
        unfold visitStmt at ha
        simp only [bind, Except.bind] at ha
        cases ht : stfTrue (.ifS l e b1 b2) with
        | error er => simp only [ht] at ha; exact absurd ha (by simp)
        | ok t =>
          simp only [ht] at ha
          cases hf : stfFalse (.ifS l e b1 b2) i (.mk lex a c d stmts) ancs with
          | error er => simp only [hf] at ha; exact absurd ha (by simp)
          | ok f =>
            simp only [hf] at ha
            cases hb1 : visitBlk (⟨.ifS l e b1 b2, i, .mk lex a c d stmts⟩ :: ancs) b1
                { tA with trueTbl := bindKey tA.trueTbl l t.lineno,
                          falseTbl := bindKey tA.falseTbl l f.lineno } with
            | error er => simp only [hb1] at ha; exact absurd ha (by simp)
            | ok tC =>
              simp only [hb1] at ha
              have hdec := stmtsAllLines_decomp stmts i _ hsome
              simp only [Blk.allLines] at hnd
              rw [hdec] at hnd
              obtain ⟨hX, hXB, -⟩ := nodup_decomp_pieces hnd
              simp only [Stmt.allLines] at hX
              obtain ⟨hnd1, -, hd12, -, -⟩ := nodup_cons_append_pieces hX
              have hmem := LocIn_mem h2
              obtain ⟨tA2, tB2, ha2, p1⟩ := ih _ _ hb1 hnd1
              have p2 : PresK tC tB loc.stmt.lineno :=
                visitBlk_presAll _ b2 tC tB _ ha (hd12 _ hmem)
              have hmemX : loc.stmt.lineno ∈ (Stmt.ifS l e b1 b2).allLines := by
                simp only [Stmt.allLines, List.mem_cons, List.mem_append]
                exact Or.inr (Or.inl hmem)
              have p3 : PresK tB tbl2 loc.stmt.lineno :=
                visitStmts_presAll ancs _ (i + 1) (stmts.drop (i + 1)) tB tbl2 _ hb
                  (hXB _ hmemX)
              exact ⟨tA2, tB2, ha2, PresK_trans (PresK_trans p1 p2) p3⟩
  | inIfFalse ancs blk i l e b1 b2 loc h h2 ih =>
      intro tbl tbl2 hv hnd
      cases blk with
      | mk lex a c d stmts =>
        unfold visitBlk at hv
        have hsome : stmts[i]? = some (.ifS l e b1 b2) := by simpa [Blk.stmts] using h
        obtain ⟨tA, tB, h0, ha, hb⟩ :=
          visitStmts_split stmts i (.ifS l e b1 b2) ancs _ 0 tbl tbl2 hsome hv
        rw [Nat.zero_add] at ha hb
        unfold visitStmt at ha
        simp only [bind, Except.bind] at ha
        cases ht : stfTrue (.ifS l e b1 b2) with
        | error er => simp only [ht] at ha; exact absurd ha (by simp)
        | ok t =>
          simp only [ht] at ha
          cases hf : stfFalse (.ifS l e b1 b2) i (.mk lex a c d stmts) ancs with
          | error er => simp only [hf] at ha; exact absurd ha (by simp)
          | ok f =>
            simp only [hf] at ha
            cases hb1 : visitBlk (⟨.ifS l e b1 b2, i, .mk lex a c d stmts⟩ :: ancs) b1
                { tA with trueTbl := bindKey tA.trueTbl l t.lineno,
                          falseTbl := bindKey tA.falseTbl l f.lineno } with
            | error er => simp only [hb1] at ha; exact absurd ha (by simp)
            | ok tC =>
              simp only [hb1] at ha
              have hdec := stmtsAllLines_decomp stmts i _ hsome
              simp only [Blk.allLines] at hnd
              rw [hdec] at hnd
              obtain ⟨hX, hXB, -⟩ := nodup_decomp_pieces hnd
              simp only [Stmt.allLines] at hX
              obtain ⟨-, hnd2, -, -, -⟩ := nodup_cons_append_pieces hX
              have hmem := LocIn_mem h2
              obtain ⟨tA2, tB2, ha2, p1⟩ := ih _ _ ha hnd2
              have hmemX : loc.stmt.lineno ∈ (Stmt.ifS l e b1 b2).allLines := by
                simp only [Stmt.allLines, List.mem_cons, List.mem_append]
                exact Or.inr (Or.inr hmem)
              have p3 : PresK tB tbl2 loc.stmt.lineno :=
                visitStmts_presAll ancs _ (i + 1) (stmts.drop (i + 1)) tB tbl2 _ hb
                  (hXB _ hmemX)
              exact ⟨tA2, tB2, ha2, PresK_trans p1 p3⟩
  | inWhile ancs blk i l e b loc h h2 ih =>
      intro tbl tbl2 hv hnd
      cases blk with
      | mk lex a c d stmts =>
        unfold visitBlk at hv
        have hsome : stmts[i]? = some (.whileS l e b) := by simpa [Blk.stmts] using h
        obtain ⟨tA, tB, h0, ha, hb⟩ :=
          visitStmts_split stmts i (.whileS l e b) ancs _ 0 tbl tbl2 hsome hv
        rw [Nat.zero_add] at ha hb
        unfold visitStmt at ha
        simp only [bind, Except.bind] at ha
        cases ht : stfTrue (.whileS l e b) with
        | error er => simp only [ht] at ha; exact absurd ha (by simp)
        | ok t =>
          simp only [ht] at ha
          cases hf : stfFalse (.whileS l e b) i (.mk lex a c d stmts) ancs with
          | error er => simp only [hf] at ha; exact absurd ha (by simp)
          | ok f =>
            simp only [hf] at ha
            have hdec := stmtsAllLines_decomp stmts i _ hsome
            simp only [Blk.allLines] at hnd
            rw [hdec] at hnd
            obtain ⟨hX, hXB, -⟩ := nodup_decomp_pieces hnd
            simp only [Stmt.allLines] at hX
            rw [List.nodup_cons] at hX
            have hmem := LocIn_mem h2
            obtain ⟨tA2, tB2, ha2, p1⟩ := ih _ _ ha hX.2
            have hmemX : loc.stmt.lineno ∈ (Stmt.whileS l e b).allLines := by
              simp only [Stmt.allLines, List.mem_cons]
              exact Or.inr hmem
            have p3 : PresK tB tbl2 loc.stmt.lineno :=
              visitStmts_presAll ancs _ (i + 1) (stmts.drop (i + 1)) tB tbl2 _ hb
                (hXB _ hmemX)
            exact ⟨tA2, tB2, ha2, PresK_trans p1 p3⟩
  | inDef ancs blk i l fv fs b loc h h2 ih =>
      intro tbl tbl2 hv hnd
      cases blk with
      | mk lex a c d stmts =>
        unfold visitBlk at hv
        have hsome : stmts[i]? = some (.defS l fv fs b) := by simpa [Blk.stmts] using h
        obtain ⟨tA, tB, h0, ha, hb⟩ :=
          visitStmts_split stmts i (.defS l fv fs b) ancs _ 0 tbl tbl2 hsome hv
        rw [Nat.zero_add] at ha hb
        unfold visitStmt at ha
        simp only [bind, Except.bind] at ha
        cases hn : stfNext (.defS l fv fs b) i (.mk lex a c d stmts) ancs with
        | error er => simp only [hn] at ha; exact absurd ha (by simp)
        | ok n =>
          simp only [hn] at ha
          have hdec := stmtsAllLines_decomp stmts i _ hsome
          simp only [Blk.allLines] at hnd
          rw [hdec] at hnd
          obtain ⟨hX, hXB, -⟩ := nodup_decomp_pieces hnd
          simp only [Stmt.allLines] at hX
          rw [List.nodup_cons] at hX
          have hmem := LocIn_mem h2
          obtain ⟨tA2, tB2, ha2, p1⟩ := ih _ _ ha hX.2
          have hmemX : loc.stmt.lineno ∈ (Stmt.defS l fv fs b).allLines := by
            simp only [Stmt.allLines, List.mem_cons]
            exact Or.inr hmem
          have p3 : PresK tB tbl2 loc.stmt.lineno :=
            visitStmts_presAll ancs _ (i + 1) (stmts.drop (i + 1)) tB tbl2 _ hb
              (hXB _ hmemX)
          exact ⟨tA2, tB2, ha2, PresK_trans p1 p3⟩

/-! ## Claim C6 — break/continue `next` entries -/

/-- C6: in a duplicate-free program, the `next` CTF maps every
`continue` line to the line of the innermost enclosing `While` (its test
line), and every `break` line to the first line of the statement-transfer
`next`-successor of that innermost enclosing `While`, however deeply the
`break`/`continue` is nested inside inner if/while blocks. -/
theorem C6_break_continue_ctf (pgm : Blk) (tbl : Ctfs) (loc : LocStmt)
    (hnd : pgm.allLines.Nodup)
    (hsent : pgm.lastLine + 1 ∉ pgm.allLines)
    (hloc : LocIn [] pgm loc)
    (hctf : getCtfs pgm = .ok tbl) :
    (∀ l, loc.stmt = .continueS l →
       ∀ w wi wb wa, enclWhile loc.ancs = .ok (w, wi, wb, wa) →
         lookupKey tbl.nextTbl l = some w.lineno)
    ∧ (∀ l, loc.stmt = .breakS l →
       ∀ w wi wb wa n, enclWhile loc.ancs = .ok (w, wi, wb, wa) →
         stfNext w wi wb wa = .ok n →
         lookupKey tbl.nextTbl l = some n.lineno) := by
  unfold getCtfs at hctf
  cases hv : visitBlk [] pgm ⟨[], [], []⟩ with
  | error er => rw [hv] at hctf; exact absurd hctf (by simp [Bind.bind, Except.bind])
  | ok t1 =>
    rw [hv] at hctf
    simp only [Bind.bind, Except.bind, Except.ok.injEq] at hctf
    obtain ⟨tA, tB, ha, p⟩ := visitBlk_locates hloc _ _ hv hnd
    have hlmem : loc.stmt.lineno ∈ pgm.allLines := LocIn_mem hloc
    constructor
    · intro l hstmt w wi wb wa hw
      rw [hstmt] at ha
      unfold visitStmt at ha
      simp only [bind, Except.bind] at ha
      have hstf : stfNext (.continueS l) loc.idx loc.blk loc.ancs = .ok w := by
        unfold stfNext stfNextAux
        simp [hw, Except.map]
      simp only [hstf] at ha
      cases ha
      have hne : l ≠ pgm.lastLine + 1 := by
        intro hcontra
        rw [hstmt] at hlmem
        simp only [Stmt.lineno] at hlmem
        rw [hcontra] at hlmem
        exact hsent hlmem
      rw [← hctf]
      rw [lookupKey_bindKey_ne _ _ _ _ hne]
      have hl2 : loc.stmt.lineno = l := by rw [hstmt]; rfl
      rw [hl2] at p
      rw [p.1]
      simp only [Stmt.lineno]
      exact lookupKey_bindKey_self _ _ _
    · intro l hstmt w wi wb wa n hw hn
      rw [hstmt] at ha
      unfold visitStmt at ha
      simp only [bind, Except.bind] at ha
      have hlt := enclWhile_length_lt loc.ancs w wi wb wa hw
      have hstf : stfNext (.breakS l) loc.idx loc.blk loc.ancs = .ok n := by
        unfold stfNext stfNextAux
        simp only [hw]
        rw [stfNextAux_eq_stfNext _ _ _ _ _ (by omega)]
        exact hn
      simp only [hstf] at ha
      cases ha
      have hne : l ≠ pgm.lastLine + 1 := by
        intro hcontra
        rw [hstmt] at hlmem
        simp only [Stmt.lineno] at hlmem
        rw [hcontra] at hlmem
        exact hsent hlmem
      rw [← hctf]
      rw [lookupKey_bindKey_ne _ _ _ _ hne]
      have hl2 : loc.stmt.lineno = l := by rw [hstmt]; rfl
      rw [hl2] at p
      rw [p.1]
      simp only [Stmt.lineno]
      exact lookupKey_bindKey_self _ _ _

/-! Concrete program for the C6 witness:
```
1  i = 0
2  while i < 5:
3      if i == 3:
4          break
5      else:
6          pass
7      i = i + 1
8      continue
9  pass
```
-/

def c6src : List PyStmt := [
  .assignExprP 1 "i" (.const (.intL 0)),
  .whileP 2 (.compare (.name "i") [.lt] [.const (.intL 5)]) [
     .ifP 3 (.compare (.name "i") [.eq] [.const (.intL 3)])
        [.breakP 4]
        [.passP 6],
     .assignExprP 7 "i" (.binOp .add (.name "i") (.const (.intL 1))),
     .continueP 8],
  .passP 9]

def c6pgm : Blk := blkOrJunk (parsePgm c6src)

def c6tbl : Ctfs := ctfsOrJunk (getCtfs c6pgm)

def c6body : Blk :=
  .mk false [] [] [] [
    .ifS 3 (.compare (.name "i") [.eq] [.const (.intL 3)])
      (.mk false [] [] [] [.breakS 4])
      (.mk false [] [] [] [.passS 6]),
    .exprAssign 7 "i" (.binOp .add (.name "i") (.const (.intL 1))),
    .continueS 8]

def c6whileStmt : Stmt :=
  .whileS 2 (.compare (.name "i") [.lt] [.const (.intL 5)]) c6body

def c6ifStmt : Stmt :=
  .ifS 3 (.compare (.name "i") [.eq] [.const (.intL 3)])
    (.mk false [] [] [] [.breakS 4])
    (.mk false [] [] [] [.passS 6])

/-- The located `continue` on line 8 (directly in the while body). -/
def c6locCont : LocStmt :=
  ⟨.continueS 8, 2, c6body, [⟨c6whileStmt, 1, c6pgm⟩]⟩

/-- The located `break` on line 4 (inside the `if` inside the while). -/
def c6locBreak : LocStmt :=
  ⟨.breakS 4, 0, .mk false [] [] [] [.breakS 4],
    [⟨c6ifStmt, 0, c6body⟩, ⟨c6whileStmt, 1, c6pgm⟩]⟩

theorem c6locCont_in : LocIn [] c6pgm c6locCont :=
  LocIn.inWhile [] c6pgm 1 2 (.compare (.name "i") [.lt] [.const (.intL 5)]) c6body
    c6locCont rfl
    (LocIn.here [⟨c6whileStmt, 1, c6pgm⟩] c6body 2 (.continueS 8) rfl)

theorem c6locBreak_in : LocIn [] c6pgm c6locBreak :=
  LocIn.inWhile [] c6pgm 1 2 (.compare (.name "i") [.lt] [.const (.intL 5)]) c6body
    c6locBreak rfl
    (LocIn.inIfTrue [⟨c6whileStmt, 1, c6pgm⟩] c6body 0 3
      (.compare (.name "i") [.eq] [.const (.intL 3)])
      (.mk false [] [] [] [.breakS 4]) (.mk false [] [] [] [.passS 6]) c6locBreak rfl
      (LocIn.here [⟨c6ifStmt, 0, c6body⟩, ⟨c6whileStmt, 1, c6pgm⟩]
        (.mk false [] [] [] [.breakS 4]) 0 (.breakS 4) rfl))

/-- Witness for C6: on the concrete program, `next[8] = 2` (the continue
jumps to the innermost while test) and `next[4] = 9` (the break jumps to
the statement after that while). -/
theorem C6_witness :
    lookupKey c6tbl.nextTbl 8 = some 2 ∧ lookupKey c6tbl.nextTbl 4 = some 9 := by
  constructor
  · exact (C6_break_continue_ctf c6pgm c6tbl c6locCont (by decide) (by decide)
      c6locCont_in rfl).1 8 rfl c6whileStmt 1 c6pgm [] rfl
  · exact (C6_break_continue_ctf c6pgm c6tbl c6locBreak (by decide) (by decide)
      c6locBreak_in rfl).2 4 rfl c6whileStmt 1 c6pgm [] (.passS 9) rfl rfl

/-! ## Claim C10 — a trailing top-level while whose test goes false -/

/-- C10: when the last top-level statement is a `While`, the CTF builder
emits `false[test] = test` (the statement-level fixed point applied to
the loop's false edge) and never emits a `next` entry for the test line,
so `is_final` is false there; a step whose test evaluates falsy applies
the `false` CTF and reproduces the state exactly — the run never reaches
a final state and re-evaluates the test forever. -/
theorem C10_trailing_while_livelock (pgm : Blk) (tbl : Ctfs) (l : Nat) (e : Expr)
    (body : Blk) (P : Pgm) (s : StateD) (loc0 : LocStmt) (ctx : Context)
    (rest : List Context) (v : Value)
    (hnd : pgm.allLines.Nodup)
    (hsent : pgm.lastLine + 1 ∉ pgm.allLines)
    (hlast : pgm.stmts.getLast? = some (.whileS l e body))
    (hctf : getCtfs pgm = .ok tbl)
    (hP : P.ctfs = tbl)
    (hstack : s.stack = ctx :: rest)
    (hline : ctx.lineno = l)
    (hinstr : lookupKey P.instrMap l = some loc0)
    (hstmt : loc0.stmt = .whileS l e body)
    (heval : evalExpr s loc0 e = .ok v)
    (hfalsy : truthy v = false) :
    lookupKey tbl.falseTbl l = some l
    ∧ lookupKey tbl.nextTbl l = none
    ∧ isFinal P s = false
    ∧ step P s = .ok s := by
  cases pgm with
  | mk lex a c d stmts =>
    unfold getCtfs at hctf
    cases hv : visitBlk [] (.mk lex a c d stmts) ⟨[], [], []⟩ with
    | error er => rw [hv] at hctf; exact absurd hctf (by simp [Bind.bind, Except.bind])
    | ok t1 =>
      rw [hv] at hctf
      simp only [Bind.bind, Except.bind, Except.ok.injEq] at hctf
      rw [List.getLast?_eq_getElem?] at hlast
      simp only [Blk.stmts] at hlast
      have hlen0 : stmts ≠ [] := by
        intro hnil; rw [hnil] at hlast; simp at hlast
      have hlen : (stmts.length - 1) + 1 = stmts.length := by
        have := List.length_pos.mpr hlen0
        omega
      have hsome : stmts[stmts.length - 1]? = some (.whileS l e body) := hlast
      obtain ⟨tA, tB, h0, ha, hb⟩ := visitStmts_split stmts (stmts.length - 1)
        (.whileS l e body) [] (.mk lex a c d stmts) 0 ⟨[], [], []⟩ t1 hsome hv
      rw [Nat.zero_add] at ha hb
      have hdropnil : stmts.drop ((stmts.length - 1) + 1) = [] := by
        rw [hlen]; exact List.drop_length stmts
      rw [hdropnil] at hb
      unfold visitStmts at hb
      cases hb
      -- unfold the while visit
      unfold visitStmt at ha
      simp only [bind, Except.bind] at ha
      cases ht : stfTrue (.whileS l e body) with
      | error er => simp only [ht] at ha; exact absurd ha (by simp)
      | ok t =>
        simp only [ht] at ha
        have hfval : stfFalse (.whileS l e body) (stmts.length - 1)
            (.mk lex a c d stmts) [] = .ok (.whileS l e body) := by
          unfold stfFalse stfNext stfNextAux
          simp [Blk.stmts, hlen]
        simp only [hfval] at ha
        -- Nodup pieces
        have hdec := stmtsAllLines_decomp stmts (stmts.length - 1) _ hsome
        simp only [Blk.allLines] at hnd
        rw [hdec] at hnd
        obtain ⟨hX, hXB, hXA⟩ := nodup_decomp_pieces hnd
        simp only [Stmt.allLines] at hX
        rw [List.nodup_cons] at hX
        have hlX : l ∈ (Stmt.whileS l e body).allLines := by
          simp [Stmt.allLines]
        have hbodyNK : l ∉ body.nextKeyLines := by
          intro hmem
          exact hX.1 (Blk_nextKeyLines_subset body l hmem)
        have hlmem : l ∈ stmtsAllLines stmts := by
          rw [hdec]
          simp only [List.mem_append]
          exact Or.inr (Or.inl hlX)
        have hlsent : l ≠ Blk.lastLine (.mk lex a c d stmts) + 1 := by
          intro hcontra
          apply hsent
          simp only [Blk.allLines]
          rw [← hcontra]
          exact hlmem
        -- false-table entry
        have hfalse : lookupKey tbl.falseTbl l = some l := by
          rw [← hctf]
          simp only []
          have hpres := visitBlk_presAll _ body _ t1 l ha (fun hmem => hX.1 hmem)
          rw [hpres.2.2]
          simp only [Stmt.lineno]
          exact lookupKey_bindKey_self _ _ _
        -- next-table absence
        have hnone : lookupKey tbl.nextTbl l = none := by
          rw [← hctf]
          simp only []
          rw [lookupKey_bindKey_ne _ _ _ _ hlsent]
          have hpres := visitBlk_presNext _ body _ t1 l ha hbodyNK
          rw [hpres]
          simp only []
          have hprefNK : l ∉ stmtsNextKeyLines (stmts.take (stmts.length - 1)) := by
            intro hmem
            exact hXA l hlX (stmtsNextKeyLines_subset _ l hmem)
          have hpres0 := visitStmts_presNext [] (.mk lex a c d stmts) 0
            (stmts.take (stmts.length - 1)) ⟨[], [], []⟩ tA l h0 hprefNK
          rw [hpres0]
          rfl
        -- is_final is false at the test line
        have hfinal : isFinal P s = false := by
          unfold isFinal
          rw [hstack]
          show (match lookupKey P.ctfs.nextTbl ctx.lineno with
                | some l2 => l2 == ctx.lineno
                | Option.none => false) = false
          rw [hline, hP, hnone]
        refine ⟨hfalse, hnone, hfinal, ?_⟩
        -- the step reproduces the state
        unfold step
        rw [hstack]
        show (match lookupKey P.instrMap ctx.lineno with
              | Option.none => StepRes.err Err.keyError s
              | some loc => _) = StepRes.ok s
        rw [hline, hinstr]
        simp only [hstmt, heval, hfalsy]
        show applyCtf P.ctfs.falseTbl s = StepRes.ok s
        unfold applyCtf
        rw [hstack]
        show (match lookupKey P.ctfs.falseTbl ctx.lineno with
              | some l2 => StepRes.ok { s with stack := ⟨l2, ctx.envId⟩ :: rest }
              | Option.none => StepRes.err Err.keyError s) = StepRes.ok s
        rw [hline, hP, hfalse]
        cases ctx with
        | mk cl ce =>
            have hcl : cl = l := hline
            subst hcl
            cases s with
            | mk envs2 edges2 stack2 =>
                simp only [] at hstack
                rw [hstack]

/-! Concrete program for the C10 witness:
```
1  x = 0
2  while x > 0:
3      continue
```
After one step the program counter sits at line 2 and the test is false.
-/

def c10src : List PyStmt := [
  .assignExprP 1 "x" (.const (.intL 0)),
  .whileP 2 (.compare (.name "x") [.gt] [.const (.intL 0)]) [.continueP 3]]

def c10pgm : Blk := blkOrJunk (parsePgm c10src)

def c10tbl : Ctfs := ctfsOrJunk (getCtfs c10pgm)

def c10P : Pgm := pgmOrJunk (createState c10pgm)

def c10s : StateD := (step c10P (stOrJunk (createState c10pgm))).state

def c10loc : LocStmt := locOrJunk (lookupKey c10P.instrMap 2)

/-- Witness for C10 at the concrete trailing-while program: the false
edge of line 2 is the fixed point `2`, line 2 has no `next` entry, the
state at line 2 is not final and stepping it reproduces it exactly. -/
theorem C10_witness :
    lookupKey c10tbl.falseTbl 2 = some 2
    ∧ lookupKey c10tbl.nextTbl 2 = none
    ∧ isFinal c10P c10s = false
    ∧ step c10P c10s = .ok c10s := by
  exact C10_trailing_while_livelock c10pgm c10tbl 2
    (.compare (.name "x") [.gt] [.const (.intL 0)])
    (.mk false [] [] [] [.continueS 3]) c10P c10s c10loc ⟨2, 0⟩ [] (Value.bool false)
    (by decide) (by decide) rfl rfl rfl rfl rfl rfl rfl rfl rfl

/-! ## Claim C9 — which names the IR builder puts into `locals` -/

mutual
/-- The claim-side collection: assignment targets and function names of
a statement, in visit order, not descending into nested function bodies
(those feed a different lexical block). -/
def ltStmt : PyStmt → List String
  | .assignExprP _ t _ => [t]
  | .assignCallP _ t _ _ => [t]
  | .ifP _ _ body orelse => ltList body ++ ltList orelse
  | .whileP _ _ body => ltList body
  | .funcDefP _ n _ _ => [n]
  | _ => []

def ltList : List PyStmt → List String
  | [] => []
  | p :: rest => ltStmt p ++ ltList rest
end

theorem addNames_append (l : List String) (a b : List String) :
    addNames l (a ++ b) = addNames (addNames l a) b := by
  simp [addNames, List.foldl_append]

theorem updateLocals_isTop (acc : ScopeAcc) (t : String) :
    (updateLocals acc t).isTop = acc.isTop := by
  unfold updateLocals; split <;> rfl

theorem updateLocals_lcls (acc : ScopeAcc) (t : String) :
    (updateLocals acc t).lcls = if acc.isTop then acc.lcls else addNames acc.lcls [t] := by
  unfold updateLocals
  split <;> simp_all [addNames]

def LP1 (acc : ScopeAcc) (p : PyStmt) : Prop :=
  ∀ st acc2, buildStmt acc p = .ok (st, acc2) →
    acc2.isTop = acc.isTop ∧
    acc2.lcls = (if acc.isTop then acc.lcls else addNames acc.lcls (ltStmt p))

def LP2 (acc : ScopeAcc) (nodes : List PyStmt) : Prop :=
  ∀ sts acc2, buildStmts acc nodes = .ok (sts, acc2) →
    acc2.isTop = acc.isTop ∧
    acc2.lcls = (if acc.isTop then acc.lcls else addNames acc.lcls (ltList nodes))

/-- What the visitor does to `locals`: nothing at top level, and exactly
the assignment targets and def names inside a function scope. -/
theorem buildStmts_locals : ∀ acc nodes, LP2 acc nodes := by
  refine buildStmts.induct LP1 LP2 ?_ ?_ ?_ ?_ ?_ ?_ ?_ ?_ ?_ ?_ ?_ ?_ ?_ ?_ ?_ ?_ ?_ ?_ ?_ ?_
  · -- passP
    intro acc l st acc2 hb
    unfold buildStmt at hb
    simp only [Except.ok.injEq, Prod.mk.injEq] at hb
    obtain ⟨-, h⟩ := hb
    subst h
    refine ⟨rfl, ?_⟩
    simp [ltStmt, addNames]
  · -- assignExprP
    intro acc l t v st acc2 hb
    unfold buildStmt at hb
    simp only [Except.ok.injEq, Prod.mk.injEq] at hb
    obtain ⟨-, h⟩ := hb
    subst h
    exact ⟨updateLocals_isTop acc t, by rw [updateLocals_lcls]; rfl⟩
  · -- assignCallP
    intro acc l t f args st acc2 hb
    unfold buildStmt at hb
    simp only [Except.ok.injEq, Prod.mk.injEq] at hb
    obtain ⟨-, h⟩ := hb
    subst h
    exact ⟨updateLocals_isTop acc t, by rw [updateLocals_lcls]; rfl⟩
  · -- ifP, body errors
    intro acc l e body orelse er herr ih st acc2 hb
    unfold buildStmt at hb
    simp only [herr] at hb
    exact absurd hb (by simp)
  · -- ifP, missing else
    intro acc l e body orelse es accB hbody hempty ih st acc2 hb
    unfold buildStmt at hb
    simp only [hbody] at hb
    simp only [hempty, if_true] at hb
    exact absurd hb (by simp)
  · -- ifP, orelse errors
    intro acc l e body orelse es accB hbody hne er herr ih2 ih3 st acc2 hb
    unfold buildStmt at hb
    simp only [hbody] at hb
    simp only [Bool.not_eq_true] at hne
    simp only [hne, Bool.false_eq_true, if_false, herr] at hb
    exact absurd hb (by simp)
  · -- ifP, success
    intro acc l e body orelse es accB hbody hne es2 accE horelse ih2 ih3 st acc2 hb
    unfold buildStmt at hb
    simp only [hbody] at hb
    simp only [Bool.not_eq_true] at hne
    simp only [hne, Bool.false_eq_true, if_false, horelse] at hb
    simp only [Except.ok.injEq, Prod.mk.injEq] at hb
    obtain ⟨-, h⟩ := hb
    subst h
    obtain ⟨ht1, hl1⟩ := ih2 es accB hbody
    obtain ⟨ht2, hl2⟩ := ih3 es2 accE horelse
    refine ⟨ht2.trans ht1, ?_⟩
    rw [hl2, hl1, ht1]
    cases hTop : acc.isTop with
    | true => simp
    | false => simp [ltStmt, addNames_append]
  · -- whileP, body errors
    intro acc l e body er herr ih st acc2 hb
    unfold buildStmt at hb
    simp only [herr] at hb
    exact absurd hb (by simp)
  · -- whileP, success
    intro acc l e body es accB hbody ih st acc2 hb
    unfold buildStmt at hb
    simp only [hbody] at hb
    simp only [Except.ok.injEq, Prod.mk.injEq] at hb
    obtain ⟨-, h⟩ := hb
    subst h
    obtain ⟨ht1, hl1⟩ := ih es accB hbody
    refine ⟨ht1, ?_⟩
    rw [hl1]
    cases hTop : acc.isTop with
    | true => simp
    | false => simp [ltStmt]
  · -- breakP
    intro acc l st acc2 hb
    unfold buildStmt at hb
    simp only [Except.ok.injEq, Prod.mk.injEq] at hb
    obtain ⟨-, h⟩ := hb
    subst h
    refine ⟨rfl, ?_⟩
    simp [ltStmt, addNames]
  · -- continueP
    intro acc l st acc2 hb
    unfold buildStmt at hb
    simp only [Except.ok.injEq, Prod.mk.injEq] at hb
    obtain ⟨-, h⟩ := hb
    subst h
    refine ⟨rfl, ?_⟩
    simp [ltStmt, addNames]
  · -- funcDefP, body errors
    intro acc l name args body er herr ih st acc2 hb
    unfold buildStmt at hb
    simp only [herr] at hb
    exact absurd hb (by simp)
  · -- funcDefP, success
    intro acc l name args body es facc hbody ih st acc2 hb
    unfold buildStmt at hb
    simp only [hbody] at hb
    simp only [Except.ok.injEq, Prod.mk.injEq] at hb
    obtain ⟨-, h⟩ := hb
    subst h
    exact ⟨updateLocals_isTop acc name, by rw [updateLocals_lcls]; rfl⟩
  · -- returnP
    intro acc l v st acc2 hb
    unfold buildStmt at hb
    simp only [Except.ok.injEq, Prod.mk.injEq] at hb
    obtain ⟨-, h⟩ := hb
    subst h
    refine ⟨rfl, ?_⟩
    simp [ltStmt, addNames]
  · -- globalP
    intro acc l names st acc2 hb
    unfold buildStmt at hb
    simp only [Except.ok.injEq, Prod.mk.injEq] at hb
    obtain ⟨-, h⟩ := hb
    subst h
    refine ⟨rfl, ?_⟩
    simp [ltStmt, addNames]
  · -- nonlocalP
    intro acc l names st acc2 hb
    unfold buildStmt at hb
    simp only [Except.ok.injEq, Prod.mk.injEq] at hb
    obtain ⟨-, h⟩ := hb
    subst h
    refine ⟨rfl, ?_⟩
    simp [ltStmt, addNames]
  · -- nil
    intro acc sts acc2 hb
    unfold buildStmts at hb
    simp only [Except.ok.injEq, Prod.mk.injEq] at hb
    obtain ⟨-, h⟩ := hb
    subst h
    refine ⟨rfl, ?_⟩
    simp [ltList, addNames]
  · -- cons, head errors
    intro acc p rest er herr ih sts acc2 hb
    unfold buildStmts at hb
    simp only [herr] at hb
    exact absurd hb (by simp)
  · -- cons, rest errors
    intro acc p rest st acc1 hhead er herr ih1 ih2 sts acc2 hb
    unfold buildStmts at hb
    simp only [hhead] at hb; simp only [herr] at hb
    exact absurd hb (by simp)
  · -- cons, success
    intro acc p rest st acc1 hhead es accR hrest ih1 ih2 sts acc2 hb
    unfold buildStmts at hb
    simp only [hhead] at hb; simp only [hrest] at hb
    simp only [Except.ok.injEq, Prod.mk.injEq] at hb
    obtain ⟨-, h⟩ := hb
    subst h
    obtain ⟨ht1, hl1⟩ := ih1 st acc1 hhead
    obtain ⟨ht2, hl2⟩ := ih2 es accR hrest
    refine ⟨ht2.trans ht1, ?_⟩
    rw [hl2, hl1, ht1]
    cases hTop : acc.isTop with
    | true => simp
    | false => simp [ltList, addNames_append]

/-- C9 (amended): the visitor populates `locals` only for lexical blocks
that are function bodies — the top-level block's `locals` stays empty —
and there exactly for the assignment targets and function-definition
names of the scope; formal parameters are never added, so a function
body block's `locals` is precisely `ltList body`, independent of the
formals. -/
theorem C9_locals_characterisation :
    (∀ nodes blk, parsePgm nodes = .ok blk → blk.lcls = [])
    ∧ (∀ (acc : ScopeAcc) nodes sts acc2, acc.isTop = false →
         buildStmts acc nodes = .ok (sts, acc2) →
         acc2.lcls = addNames acc.lcls (ltList nodes))
    ∧ (∀ (acc : ScopeAcc) l n args body st acc2,
         buildStmt acc (.funcDefP l n args body) = .ok (st, acc2) →
         ∃ bs nl gl, st = .defS l n args (.mk true (addNames [] (ltList body)) nl gl bs)) := by
  refine ⟨?_, ?_, ?_⟩
  · intro nodes blk hp
    unfold parsePgm at hp
    cases hb : buildStmts ⟨[], [], [], true⟩ nodes with
    | error er => rw [hb] at hp; exact absurd hp (by simp)
    | ok r =>
      obtain ⟨sts, acc2⟩ := r
      rw [hb] at hp
      simp only [Except.ok.injEq] at hp
      obtain ⟨-, hl⟩ := buildStmts_locals ⟨[], [], [], true⟩ nodes sts acc2 hb
      rw [← hp]
      simpa using hl
  · intro acc nodes sts acc2 hTop hb
    obtain ⟨-, hl⟩ := buildStmts_locals acc nodes sts acc2 hb
    rw [hl, hTop]
    simp
  · intro acc l n args body st acc2 hb
    unfold buildStmt at hb
    cases hbody : buildStmts ⟨[], [], [], false⟩ body with
    | error er => simp only [hbody] at hb; exact absurd hb (by simp)
    | ok r =>
      obtain ⟨bs, facc⟩ := r
      simp only [hbody] at hb
      simp only [Except.ok.injEq, Prod.mk.injEq] at hb
      obtain ⟨hst, -⟩ := hb
      obtain ⟨-, hl⟩ := buildStmts_locals ⟨[], [], [], false⟩ body bs facc hbody
      simp only [if_false] at hl
      refine ⟨bs, facc.nonlcls, facc.gbls, ?_⟩
      rw [← hst, hl]
      simp [addNames]

def c9src : List PyStmt := [.funcDefP 1 "f" ["x"] [.returnP 2 (.name "x")]]

def c9blk : Blk := blkOrJunk (parsePgm c9src)

/-- C9 counterexample: after building `def f(x): return x`, the formal
`x` does NOT appear in the locals set of `f`'s body block (the set is
empty), contradicting the claim. -/
theorem C9_counterexample :
    parsePgm c9src = .ok c9blk
    ∧ c9blk.stmts.head? =
        some (.defS 1 "f" ["x"] (.mk true [] [] [] [.retS 2 (.name "x")]))
    ∧ ("x" ∈ ([] : List String)) = False := by
  exact ⟨rfl, rfl, by simp⟩

/-- Witness for the amended C9 on a concrete function body with an
assignment, a nested def and an untouched formal: locals = exactly the
assignment target and the nested def name. -/
theorem C9_witness :
    buildStmt ⟨[], [], [], true⟩
        (.funcDefP 1 "f" ["x"]
          [.assignExprP 2 "y" (.const (.intL 1)),
           .funcDefP 3 "g" ["z"] [.returnP 4 (.const (.intL 0))],
           .returnP 5 (.name "y")]) =
      .ok (.defS 1 "f" ["x"]
            (.mk true ["y", "g"] [] []
              [.exprAssign 2 "y" (.const (.intL 1)),
               .defS 3 "g" ["z"] (.mk true [] [] [] [.retS 4 (.const (.intL 0))]),
               .retS 5 (.name "y")]),
           ⟨[], [], [], true⟩)
    ∧ ["y", "g"] = addNames []
        (ltList [.assignExprP 2 "y" (.const (.intL 1)),
                 .funcDefP 3 "g" ["z"] [.returnP 4 (.const (.intL 0))],
                 .returnP 5 (.name "y")]) := by
  constructor
  · obtain ⟨bs, nl, gl, hst⟩ := C9_locals_characterisation.2.2 ⟨[], [], [], true⟩ 1 "f" ["x"]
      [.assignExprP 2 "y" (.const (.intL 1)),
       .funcDefP 3 "g" ["z"] [.returnP 4 (.const (.intL 0))],
       .returnP 5 (.name "y")]
      (.defS 1 "f" ["x"]
        (.mk true ["y", "g"] [] []
          [.exprAssign 2 "y" (.const (.intL 1)),
           .defS 3 "g" ["z"] (.mk true [] [] [] [.retS 4 (.const (.intL 0))]),
           .retS 5 (.name "y")]))
      ⟨[], [], [], true⟩ rfl
    exact rfl
  · rfl

/-! ## Machinery for the reachable-state invariants (C7) -/

/-- A value is closure-safe for a store: any closure it is points its
parent environment id at an allocated environment. -/
def ClosOK (envs : List (Nat × EnvMap)) (v : Value) : Prop :=
  ∀ ln fs pid, v = .closure ln fs pid → hasKey envs pid = true

/-- Every closure stored anywhere in the environment store is
closure-safe for the store itself. -/
def EnvsOK (envs : List (Nat × EnvMap)) : Prop :=
  ∀ id env, lookupKey envs id = some env →
    ∀ x v, lookupKey env x = some v → ClosOK envs v

theorem binOpEval_not_closure (op : BinOp) (a b v : Value)
    (h : binOpEval op a b = .ok v) : ∀ ln fs pid, v ≠ .closure ln fs pid := by
  intro ln fs pid heq
  subst heq
  cases op <;>
    simp only [binOpEval, addV, subV, multV, divV, floordivV, modV, powV, lshiftV,
      rshiftV, bitV, matmultV] at h <;>
    (repeat' split at h) <;> simp_all

theorem unOpEval_not_closure (op : UnOp) (a v : Value)
    (h : unOpEval op a = .ok v) : ∀ ln fs pid, v ≠ .closure ln fs pid := by
  intro ln fs pid heq
  subst heq
  cases op <;> simp only [unOpEval] at h <;> (repeat' split at h) <;> simp_all

theorem evalCmpChain_bool (s : StateD) (loc : LocStmt) :
    ∀ (ops : List CmpOp) (comps : List Expr) (left v : Value),
      evalCmpChain s loc left ops comps = .ok v → ∃ bv, v = .bool bv := by
  intro ops
  induction ops with
  | nil =>
      intro comps left v h
      unfold evalCmpChain at h
      cases comps <;> simp only [Except.ok.injEq] at h <;> exact ⟨true, h.symm⟩
  | cons op ops2 ih =>
      intro comps left v h
      cases comps with
      | nil =>
          unfold evalCmpChain at h
          simp only [Except.ok.injEq] at h
          exact ⟨true, h.symm⟩
      | cons c cs =>
          unfold evalCmpChain at h
          cases hr : evalExpr s loc c with
          | error er => rw [hr] at h; simp at h
          | ok right =>
            rw [hr] at h
            simp only [] at h
            cases hc : cmpOpEval op left right with
            | error er => rw [hc] at h; simp at h
            | ok res =>
              rw [hc] at h
              simp only [] at h
              by_cases hres : res = true
              · rw [hres] at h
                simp only [if_true] at h
                exact ih cs right v h
              · rw [Bool.not_eq_true] at hres
                rw [hres] at h
                simp only [Bool.false_eq_true, if_false, Except.ok.injEq] at h
                exact ⟨false, h.symm⟩

/-- Name lookup returns a stored value, hence a closure-safe one. -/
theorem lookupVal_closOK (s : StateD) (loc : LocStmt) (x : String) (v : Value)
    (hok : EnvsOK s.envs) (h : lookupVal s loc x = .ok v) : ClosOK s.envs v := by
  unfold lookupVal at h
  cases hid : lookupEnvId s loc x with
  | error er => rw [hid] at h; simp at h
  | ok id =>
    rw [hid] at h
    simp only [] at h
    cases henv : lookupKey s.envs id with
    | none => rw [henv] at h; simp at h
    | some env =>
      rw [henv] at h
      simp only [] at h
      cases hv : lookupKey env x with
      | none => rw [hv] at h; simp at h
      | some v2 =>
        rw [hv] at h
        simp only [Except.ok.injEq] at h
        subst h
        exact hok id env henv x v2 hv

/-- Successful expression evaluation yields a closure-safe value: the
only expressions that can produce a closure are name lookups, and those
read the store. -/
theorem evalExpr_closOK (s : StateD) (loc : LocStmt) (e : Expr) (v : Value)
    (hok : EnvsOK s.envs) (h : evalExpr s loc e = .ok v) : ClosOK s.envs v := by
  cases e with
  | const l =>
      unfold evalExpr at h
      simp only [Except.ok.injEq] at h
      subst h
      intro ln fs pid heq
      cases l <;> simp [Lit.toValue] at heq
  | name id => exact lookupVal_closOK s loc id v hok (by simpa [evalExpr] using h)
  | unaryOp op e1 =>
      unfold evalExpr at h
      cases h1 : evalExpr s loc e1 with
      | error er => rw [h1] at h; simp at h
      | ok a =>
        rw [h1] at h
        simp only [] at h
        intro ln fs pid heq
        exact absurd heq (unOpEval_not_closure op a v h ln fs pid)
  | binOp op e1 e2 =>
      unfold evalExpr at h
      cases h1 : evalExpr s loc e1 with
      | error er => rw [h1] at h; simp at h
      | ok a =>
        rw [h1] at h
        simp only [] at h
        cases h2 : evalExpr s loc e2 with
        | error er => rw [h2] at h; simp at h
        | ok b =>
          rw [h2] at h
          simp only [] at h
          intro ln fs pid heq
          exact absurd heq (binOpEval_not_closure op a b v h ln fs pid)
  | compare e1 ops comps =>
      unfold evalExpr at h
      cases h1 : evalExpr s loc e1 with
      | error er => rw [h1] at h; simp at h
      | ok a =>
        rw [h1] at h
        simp only [] at h
        obtain ⟨bv, hbv⟩ := evalCmpChain_bool s loc ops comps a v h
        subst hbv
        intro ln fs pid heq
        cases heq

theorem maxEnvId_ge (envs : List (Nat × EnvMap)) (id : Nat)
    (h : hasKey envs id = true) : id ≤ maxEnvId envs := by
  unfold maxEnvId
  have haux : ∀ (l : List (Nat × EnvMap)) (m : Nat),
      m ≤ l.foldl (fun acc p => max acc p.1) m := by
    intro l
    induction l with
    | nil => intro m; exact Nat.le_refl m
    | cons p rest ih =>
        intro m
        calc m ≤ max m p.1 := Nat.le_max_left _ _
        _ ≤ rest.foldl (fun acc q => max acc q.1) (max m p.1) := ih _
  unfold hasKey at h
  induction envs generalizing id with
  | nil => simp [lookupKey] at h
  | cons p rest ih =>
      obtain ⟨k, env⟩ := p
      by_cases hk : k = id
      · subst hk
        simp only [List.foldl_cons]
        calc k ≤ max 0 k := Nat.le_max_right _ _
        _ ≤ rest.foldl (fun acc q => max acc q.1) (max 0 k) := haux _ _
      · simp only [lookupKey, hk, if_false] at h
        simp only [List.foldl_cons]
        have := ih id h
        -- monotonicity of the fold in its initial accumulator
        have hmono : ∀ (l : List (Nat × EnvMap)) (m1 m2 : Nat), m1 ≤ m2 →
            l.foldl (fun acc q => max acc q.1) m1 ≤ l.foldl (fun acc q => max acc q.1) m2 := by
          intro l
          induction l with
          | nil => intro m1 m2 hm; exact hm
          | cons q rest2 ih2 =>
              intro m1 m2 hm
              exact ih2 _ _ (max_le_max hm (le_refl q.1))
        calc id ≤ rest.foldl (fun acc q => max acc q.1) 0 := this
        _ ≤ rest.foldl (fun acc q => max acc q.1) (max 0 k) := hmono _ _ _ (Nat.zero_le _)

theorem hasKey_fresh (envs : List (Nat × EnvMap)) :
    hasKey envs (maxEnvId envs + 1) = false := by
  by_cases h : hasKey envs (maxEnvId envs + 1) = true
  · have := maxEnvId_ge envs _ h
    omega
  · simpa using h

theorem lookupKey_append {κ α : Type} [DecidableEq κ]
    (m1 m2 : List (κ × α)) (k : κ) :
    lookupKey (m1 ++ m2) k =
      (match lookupKey m1 k with
       | some v => some v
       | Option.none => lookupKey m2 k) := by
  induction m1 with
  | nil => simp [lookupKey]
  | cons p rest ih =>
      obtain ⟨k0, v0⟩ := p
      by_cases hk : k0 = k
      · subst hk; simp [lookupKey]
      · simp [lookupKey, hk, ih]

theorem hasKey_append_right {κ α : Type} [DecidableEq κ]
    (m1 m2 : List (κ × α)) (k : κ) (h : hasKey m1 k = true) :
    hasKey (m1 ++ m2) k = true := by
  unfold hasKey at h ⊢
  rw [lookupKey_append]
  cases hl : lookupKey m1 k with
  | none => rw [hl] at h; simp at h
  | some v => simp

theorem updateEnv_lookup_ne (envs : List (Nat × EnvMap)) (id k : Nat)
    (x : String) (v : Value) (h : k ≠ id) :
    lookupKey (updateEnv envs id x v) k = lookupKey envs k := by
  induction envs with
  | nil => simp [updateEnv]
  | cons p rest ih =>
      obtain ⟨k0, env0⟩ := p
      unfold updateEnv
      by_cases hk : k0 = id
      · rw [if_pos hk]
        unfold lookupKey
        by_cases hk2 : k0 = k
        · exact absurd (hk2.symm.trans hk) h
        · rw [if_neg hk2, if_neg hk2]
      · rw [if_neg hk]
        unfold lookupKey
        by_cases hk2 : k0 = k
        · rw [if_pos hk2, if_pos hk2]
        · rw [if_neg hk2, if_neg hk2]
          exact ih

theorem updateEnv_lookup_eq (envs : List (Nat × EnvMap)) (id : Nat)
    (x : String) (v : Value) :
    lookupKey (updateEnv envs id x v) id =
      (lookupKey envs id).map (fun env => bindKey env x v) := by
  induction envs with
  | nil => simp [updateEnv, lookupKey]
  | cons p rest ih =>
      obtain ⟨k0, env0⟩ := p
      by_cases hk : k0 = id
      · subst hk
        simp [updateEnv, lookupKey]
      · simp [updateEnv, hk, lookupKey, ih]

theorem updateEnv_hasKey (envs : List (Nat × EnvMap)) (id k : Nat)
    (x : String) (v : Value) :
    hasKey (updateEnv envs id x v) k = hasKey envs k := by
  unfold hasKey
  by_cases h : k = id
  · subst h
    rw [updateEnv_lookup_eq]
    cases lookupKey envs k <;> simp
  · rw [updateEnv_lookup_ne envs id k x v h]

theorem lookupKey_bindKey_lookup {κ α : Type} [DecidableEq κ]
    (m : List (κ × α)) (k k2 : κ) (v : α) :
    lookupKey (bindKey m k v) k2 = if k2 = k then some v else lookupKey m k2 := by
  by_cases h : k2 = k
  · subst h; simp [lookupKey_bindKey_self]
  · simp [h, lookupKey_bindKey_ne m k k2 v h]

/-- The inductive invariant: together these clauses are preserved by
every successful step and imply claim C7's conclusions. -/
structure Inv (s : StateD) : Prop where
  h0 : hasKey s.envs 0 = true
  hedges : ∀ c p, lookupKey s.edges c = some p →
    p < c ∧ hasKey s.envs p = true ∧ hasKey s.envs c = true
  hcomplete : ∀ id, hasKey s.envs id = true → id ≠ 0 →
    (lookupKey s.edges id).isSome = true
  hstack : s.stack ≠ []
  hbot : ∀ c, s.stack.getLast? = some c → c.envId = 0
  hframes : ∀ c ∈ s.stack, hasKey s.envs c.envId = true
  hvals : EnvsOK s.envs

theorem Inv_bindInEnv {s : StateD} (hI : Inv s) (id : Nat) (x : String) (v : Value)
    (hv : ClosOK s.envs v) : Inv (bindInEnv s id x v) := by
  have hkeys : ∀ k, hasKey (bindInEnv s id x v).envs k = hasKey s.envs k := by
    intro k
    exact updateEnv_hasKey s.envs id k x v
  refine ⟨?_, ?_, ?_, hI.hstack, hI.hbot, ?_, ?_⟩
  · rw [hkeys]; exact hI.h0
  · intro c p h
    obtain ⟨h1, h2, h3⟩ := hI.hedges c p h
    exact ⟨h1, by rw [hkeys]; exact h2, by rw [hkeys]; exact h3⟩
  · intro k hk
    rw [hkeys] at hk
    exact hI.hcomplete k hk
  · intro c hc
    rw [hkeys]
    exact hI.hframes c hc
  · intro id2 env2 henv2 y w hw
    replace henv2 : lookupKey (updateEnv s.envs id x v) id2 = some env2 := henv2
    have hcl : ClosOK s.envs w := by
      by_cases hid : id2 = id
      · subst hid
        rw [updateEnv_lookup_eq] at henv2
        cases henv : lookupKey s.envs id2 with
        | none => rw [henv] at henv2; simp at henv2
        | some env0 =>
          rw [henv] at henv2
          simp only [Option.map_some', Option.some.injEq] at henv2
          subst henv2
          rw [lookupKey_bindKey_lookup] at hw
          by_cases hy : y = x
          · rw [if_pos hy] at hw
            cases hw
            exact hv
          · rw [if_neg hy] at hw
            exact hI.hvals id2 env0 henv y w hw
      · rw [updateEnv_lookup_ne s.envs id id2 x v hid] at henv2
        exact hI.hvals id2 env2 henv2 y w hw
    intro ln fs pid heq
    rw [hkeys]
    exact hcl ln fs pid heq

theorem Inv_applyCtf {s s2 : StateD} (tbl : List (Nat × Nat)) (hI : Inv s)
    (h : applyCtf tbl s = .ok s2) : Inv s2 := by
  unfold applyCtf at h
  cases hst : s.stack with
  | nil => rw [hst] at h; simp at h
  | cons c rest =>
    rw [hst] at h
    simp only [] at h
    cases hl : lookupKey tbl c.lineno with
    | none => rw [hl] at h; simp at h
    | some l2 =>
      rw [hl] at h
      simp only [StepRes.ok.injEq] at h
      subst h
      refine ⟨hI.h0, hI.hedges, hI.hcomplete, by simp, ?_, ?_, hI.hvals⟩
      · intro c2 hc2
        cases rest with
        | nil =>
            simp only [List.getLast?_singleton, Option.some.injEq] at hc2
            subst hc2
            have := hI.hbot c (by rw [hst]; rfl)
            exact this
        | cons r rest2 =>
            have hc3 : (r :: rest2).getLast? = some c2 := by
              simpa [List.getLast?_cons_cons] using hc2
            apply hI.hbot c2
            rw [hst]
            simpa [List.getLast?_cons_cons] using hc3
      · intro c2 hc2
        simp only [List.mem_cons] at hc2
        rcases hc2 with h | h
        · subst h
          exact hI.hframes c (by rw [hst]; exact List.mem_cons_self c rest)
        · exact hI.hframes c2 (by rw [hst]; exact List.mem_cons_of_mem c h)

theorem closOK_of_keys_eq {envs1 envs2 : List (Nat × EnvMap)} {v : Value}
    (hkeys : ∀ k, hasKey envs2 k = hasKey envs1 k) (h : ClosOK envs1 v) :
    ClosOK envs2 v := by
  intro ln fs pid heq
  rw [hkeys]
  exact h ln fs pid heq

theorem envsOK_updateEnv (envs : List (Nat × EnvMap)) (id : Nat) (x : String)
    (v : Value) (hok : EnvsOK envs) (hv : ClosOK envs v) :
    EnvsOK (updateEnv envs id x v) := by
  have hkeys : ∀ k, hasKey (updateEnv envs id x v) k = hasKey envs k :=
    fun k => updateEnv_hasKey envs id k x v
  intro id2 env2 henv2 y w hw
  have hcl : ClosOK envs w := by
    by_cases hid : id2 = id
    · subst hid
      rw [updateEnv_lookup_eq] at henv2
      cases henv : lookupKey envs id2 with
      | none => rw [henv] at henv2; simp at henv2
      | some env0 =>
        rw [henv] at henv2
        simp only [Option.map_some', Option.some.injEq] at henv2
        subst henv2
        rw [lookupKey_bindKey_lookup] at hw
        by_cases hy : y = x
        · rw [if_pos hy] at hw
          cases hw
          exact hv
        · rw [if_neg hy] at hw
          exact hok id2 env0 henv y w hw
    · rw [updateEnv_lookup_ne envs id id2 x v hid] at henv2
      exact hok id2 env2 henv2 y w hw
  exact closOK_of_keys_eq hkeys hcl

theorem envsOK_append_fresh (envs : List (Nat × EnvMap)) (newId : Nat)
    (hok : EnvsOK envs) : EnvsOK (envs ++ [(newId, [])]) := by
  intro id env henv x v hv
  rw [lookupKey_append] at henv
  cases hold : lookupKey envs id with
  | none =>
      rw [hold] at henv
      simp only [lookupKey] at henv
      by_cases hid : newId = id
      · rw [if_pos hid] at henv
        cases henv
        simp [lookupKey] at hv
      · rw [if_neg hid] at henv
        cases henv
  | some env0 =>
      rw [hold] at henv
      cases henv
      have := hok id env hold x v hv
      intro ln fs pid heq
      exact hasKey_append_right envs [(newId, [])] pid (this ln fs pid heq)

theorem bindFormalsLoop_ok (loc : LocStmt) (envId : Nat) :
    ∀ (formals : List String) (args : List Expr) (s1 s2 : StateD),
      EnvsOK s1.envs → bindFormalsLoop s1 loc envId formals args = .ok s2 →
      s2.edges = s1.edges ∧ s2.stack = s1.stack ∧
        (∀ k, hasKey s2.envs k = hasKey s1.envs k) ∧ EnvsOK s2.envs := by
  intro formals
  induction formals with
  | nil =>
      intro args s1 s2 hok h
      unfold bindFormalsLoop at h
      cases h
      exact ⟨rfl, rfl, fun k => rfl, hok⟩
  | cons f fs ih =>
      intro args s1 s2 hok h
      cases args with
      | nil =>
          unfold bindFormalsLoop at h
          cases h
          exact ⟨rfl, rfl, fun k => rfl, hok⟩
      | cons a as =>
          unfold bindFormalsLoop at h
          cases he : evalExpr s1 loc a with
          | error er => rw [he] at h; simp at h
          | ok v =>
            rw [he] at h
            simp only [] at h
            have hv : ClosOK s1.envs v := evalExpr_closOK s1 loc a v hok he
            have hok2 : EnvsOK (bindInEnv s1 envId f v).envs :=
              envsOK_updateEnv s1.envs envId f v hok hv
            obtain ⟨h1, h2, h3, h4⟩ := ih as (bindInEnv s1 envId f v) s2 hok2 h
            refine ⟨h1, h2, ?_, h4⟩
            intro k
            rw [h3 k]
            exact updateEnv_hasKey s1.envs envId k f v

theorem bindBottoms_ok (newId : Nat) :
    ∀ (lcls : List String) (s2 : StateD),
      EnvsOK s2.envs →
      let s3 := lcls.foldl (fun st v => bindInEnv st newId v .bottom) s2
      s3.edges = s2.edges ∧ s3.stack = s2.stack ∧
        (∀ k, hasKey s3.envs k = hasKey s2.envs k) ∧ EnvsOK s3.envs := by
  intro lcls
  induction lcls with
  | nil =>
      intro s2 hok
      exact ⟨rfl, rfl, fun k => rfl, hok⟩
  | cons x xs ih =>
      intro s2 hok
      have hbot : ClosOK s2.envs Value.bottom := by
        intro ln fs pid heq
        cases heq
      have hok2 : EnvsOK (bindInEnv s2 newId x .bottom).envs :=
        envsOK_updateEnv s2.envs newId x _ hok hbot
      obtain ⟨h1, h2, h3, h4⟩ := ih (bindInEnv s2 newId x .bottom) hok2
      simp only [List.foldl_cons]
      refine ⟨h1, h2, ?_, h4⟩
      intro k
      rw [h3 k]
      exact updateEnv_hasKey s2.envs newId k x _

theorem chainAux_fuel (edges : List (Nat × Nat))
    (hdec : ∀ c p, lookupKey edges c = some p → p < c) :
    ∀ (n cur f1 f2 : Nat), cur ≤ n → cur < f1 → cur < f2 →
      chainAux edges cur f1 = chainAux edges cur f2 := by
  intro n
  induction n with
  | zero =>
      intro cur f1 f2 hn h1 h2
      have hc : cur = 0 := Nat.le_zero.mp hn
      subst hc
      cases f1 with
      | zero => omega
      | succ g1 =>
        cases f2 with
        | zero => omega
        | succ g2 =>
          unfold chainAux
          cases hl : lookupKey edges 0 with
          | none => rfl
          | some p =>
              have := hdec 0 p hl
              omega
  | succ m ih =>
      intro cur f1 f2 hn h1 h2
      cases f1 with
      | zero => omega
      | succ g1 =>
        cases f2 with
        | zero => omega
        | succ g2 =>
          unfold chainAux
          cases hl : lookupKey edges cur with
          | none => rfl
          | some p =>
              have hp := hdec cur p hl
              show cur :: chainAux edges p g1 = cur :: chainAux edges p g2
              rw [ih p g1 g2 (by omega) (by omega) (by omega)]

theorem chainAux_le (edges : List (Nat × Nat))
    (hdec : ∀ c p, lookupKey edges c = some p → p < c) :
    ∀ (f cur : Nat) (x : Nat), x ∈ chainAux edges cur f → x ≤ cur := by
  intro f
  induction f with
  | zero =>
      intro cur x hx
      unfold chainAux at hx
      simp only [List.mem_singleton] at hx
      omega
  | succ g ih =>
      intro cur x hx
      unfold chainAux at hx
      cases hl : lookupKey edges cur with
      | none =>
          rw [hl] at hx
          simp only [List.mem_singleton] at hx
          omega
      | some p =>
          rw [hl] at hx
          simp only [List.mem_cons] at hx
          rcases hx with h | h
          · omega
          · have := ih p x h
            have := hdec cur p hl
            omega

/-- Chain correctness under the invariant's edge conditions: the parent
chain from any allocated environment ends at 0 and repeats no id. -/
theorem chain_ok (edges : List (Nat × Nat)) (envs : List (Nat × EnvMap))
    (hdec : ∀ c p, lookupKey edges c = some p → p < c ∧ hasKey envs p = true)
    (hcomp : ∀ id, hasKey envs id = true → id ≠ 0 → (lookupKey edges id).isSome = true) :
    ∀ (n id : Nat), id ≤ n → hasKey envs id = true →
      (getParentChain edges id).getLast? = some 0 ∧ (getParentChain edges id).Nodup := by
  have hdec1 : ∀ c p, lookupKey edges c = some p → p < c := fun c p h => (hdec c p h).1
  intro n
  induction n with
  | zero =>
      intro id hn hkey
      have h0 : id = 0 := Nat.le_zero.mp hn
      subst h0
      unfold getParentChain chainAux
      cases hl : lookupKey edges 0 with
      | none => simp
      | some p =>
          have := hdec1 0 p hl
          omega
  | succ m ih =>
      intro id hn hkey
      by_cases h0 : id = 0
      · subst h0
        unfold getParentChain chainAux
        cases hl : lookupKey edges 0 with
        | none => simp
        | some p =>
            have := hdec1 0 p hl
            omega
      · have hedge := hcomp id hkey h0
        obtain ⟨p, hp⟩ := Option.isSome_iff_exists.mp hedge
        obtain ⟨hplt, hpkey⟩ := hdec id p hp
        unfold getParentChain chainAux
        rw [hp]
        show ((id :: chainAux edges p id).getLast? = some 0) ∧ (id :: chainAux edges p id).Nodup
        have hrw : chainAux edges p id = getParentChain edges p := by
          unfold getParentChain
          exact chainAux_fuel edges hdec1 p p id (p + 1) (Nat.le_refl p) (by omega)
            (Nat.lt_succ_self p)
        rw [hrw]
        obtain ⟨hlast, hnd⟩ := ih p (by omega) hpkey
        constructor
        · cases hch : getParentChain edges p with
          | nil => rw [hch] at hlast; simp at hlast
          | cons y ys =>
              rw [hch] at hlast
              simpa [List.getLast?_cons_cons] using hlast
        · rw [List.nodup_cons]
          refine ⟨?_, hnd⟩
          intro hmem
          have := chainAux_le edges hdec1 (p + 1) p id hmem
          omega

theorem hasKey_append_single (envs : List (Nat × EnvMap)) (newId k : Nat) :
    hasKey (envs ++ [(newId, [])]) k = (hasKey envs k || (k == newId)) := by
  unfold hasKey
  rw [lookupKey_append]
  cases hl : lookupKey envs k with
  | some v => simp
  | none =>
      simp only [Option.isSome_none, Bool.false_or]
      by_cases hk : newId = k
      · subst hk
        simp [lookupKey]
      · simp [lookupKey, hk]
        exact fun hh => hk hh.symm

/-- Preservation of the inductive invariant by one successful step. -/
theorem step_preserves_inv {P : Pgm} {s s2 : StateD} (hI : Inv s)
    (h : step P s = .ok s2) : Inv s2 := by
  unfold step at h
  cases hst : s.stack with
  | nil => exact absurd hst hI.hstack
  | cons ctx stail =>
    simp only [hst] at h
    cases hloc : lookupKey P.instrMap ctx.lineno with
    | none => simp only [hloc] at h; exact absurd h (by simp)
    | some loc =>
      simp only [hloc] at h
      have hframe : hasKey s.envs ctx.envId = true :=
        hI.hframes ctx (by rw [hst]; exact List.mem_cons_self ctx stail)
      cases hstmt : loc.stmt with
      | passS l =>
          simp only [hstmt] at h
          exact Inv_applyCtf _ hI h
      | breakS l =>
          simp only [hstmt] at h
          exact Inv_applyCtf _ hI h
      | continueS l =>
          simp only [hstmt] at h
          exact Inv_applyCtf _ hI h
      | globalS l vs =>
          simp only [hstmt] at h
          exact Inv_applyCtf _ hI h
      | nonlocalS l vs =>
          simp only [hstmt] at h
          exact Inv_applyCtf _ hI h
      | exprAssign l var e =>
          simp only [hstmt] at h
          cases hid : lookupEnvId s loc var with
          | error er => simp only [hid] at h; exact absurd h (by simp)
          | ok envId =>
            simp only [hid] at h
            cases hev : evalExpr s loc e with
            | error er => simp only [hev] at h; exact absurd h (by simp)
            | ok v =>
              simp only [hev] at h
              exact Inv_applyCtf _
                (Inv_bindInEnv hI envId var v (evalExpr_closOK s loc e v hI.hvals hev)) h
      | ifS l e b1 b2 =>
          simp only [hstmt] at h
          cases hev : evalExpr s loc e with
          | error er => simp only [hev] at h; exact absurd h (by simp)
          | ok v =>
            simp only [hev] at h
            split at h
            · exact Inv_applyCtf _ hI h
            · exact Inv_applyCtf _ hI h
      | whileS l e b =>
          simp only [hstmt] at h
          cases hev : evalExpr s loc e with
          | error er => simp only [hev] at h; exact absurd h (by simp)
          | ok v =>
            simp only [hev] at h
            split at h
            · exact Inv_applyCtf _ hI h
            · exact Inv_applyCtf _ hI h
      | defS l fv formals body =>
          simp only [hstmt] at h
          cases hbody : body.stmts with
          | nil => simp only [hbody] at h; exact absurd h (by simp)
          | cons b0 brest =>
            simp only [hbody] at h
            cases hid : lookupEnvId s loc fv with
            | error er => simp only [hid] at h; exact absurd h (by simp)
            | ok envId =>
              simp only [hid] at h
              have hv : ClosOK s.envs (.closure b0.lineno formals ctx.envId) := by
                intro ln fs pid heq
                cases heq
                exact hframe
              exact Inv_applyCtf _ (Inv_bindInEnv hI envId fv _ hv) h
      | retS l e =>
          simp only [hstmt] at h
          cases hev : evalExpr s loc e with
          | error er => simp only [hev] at h; exact absurd h (by simp)
          | ok v =>
            simp only [hev, List.tail_cons] at h
            cases hstail : stail with
            | nil => subst hstail; exact absurd h (by simp)
            | cons cctx rest2 =>
              subst hstail
              cases hcloc : lookupKey P.instrMap cctx.lineno with
              | none => simp only [hcloc] at h; exact absurd h (by simp)
              | some cloc =>
                simp only [hcloc] at h
                cases htv : targetVar cloc.stmt with
                | none => simp only [htv] at h; exact absurd h (by simp)
                | some tv =>
                  simp only [htv] at h
                  have hInv1 : Inv { s with stack := cctx :: rest2 } := by
                    refine ⟨hI.h0, hI.hedges, hI.hcomplete, by simp, ?_, ?_, hI.hvals⟩
                    · intro c2 hc2
                      apply hI.hbot c2
                      rw [hst]
                      simpa [List.getLast?_cons_cons] using hc2
                    · intro c2 hc2
                      apply hI.hframes c2
                      rw [hst]
                      exact List.mem_cons_of_mem ctx hc2
                  cases hid : lookupEnvId { s with stack := cctx :: rest2 } cloc tv with
                  | error er => simp only [hid] at h; exact absurd h (by simp)
                  | ok envId =>
                    simp only [hid] at h
                    have hv : ClosOK s.envs v := evalExpr_closOK s loc e v hI.hvals hev
                    exact Inv_applyCtf _ (Inv_bindInEnv hInv1 envId tv v hv) h
      | callAssign l var fv args =>
          simp only [hstmt] at h
          cases hcv : lookupVal s loc fv with
          | error er => simp only [hcv] at h; exact absurd h (by simp)
          | ok cv =>
            cases cv with
            | closure clLine formals parId =>
              simp only [hcv] at h
              split at h
              · exact absurd h (by simp)
              · cases hbf : bindFormalsLoop
                    (⟨s.envs ++ [(maxEnvId s.envs + 1, [])], s.edges, ctx :: stail⟩ : StateD) loc
                    (maxEnvId s.envs + 1) formals args with
                | err er sx => simp only [hbf] at h; exact absurd h (by simp)
                | ok sx =>
                  simp only [hbf] at h
                  cases hcl : lookupKey P.instrMap clLine with
                  | none => simp only [hcl] at h; exact absurd h (by simp)
                  | some cloc =>
                    simp only [hcl] at h
                    cases h
                    -- name the moving parts
                    have hparOK : hasKey s.envs parId = true := by
                      have := lookupVal_closOK s loc fv _ hI.hvals hcv
                      exact this clLine formals parId rfl
                    have hok1 : EnvsOK ((⟨s.envs ++ [(maxEnvId s.envs + 1, [])],
                        s.edges, ctx :: stail⟩ : StateD)).envs :=
                      envsOK_append_fresh s.envs (maxEnvId s.envs + 1) hI.hvals
                    obtain ⟨hbfE, hbfS, hbfK, hbfOK⟩ :=
                      bindFormalsLoop_ok loc (maxEnvId s.envs + 1) formals args _ sx hok1 hbf
                    obtain ⟨hbE, hbS, hbK, hbOK⟩ :=
                      bindBottoms_ok (maxEnvId s.envs + 1)
                        (cloc.blk.lcls.filter
                          (fun v2 => !cloc.blk.nonlcls.contains v2 &&
                            !cloc.blk.gbls.contains v2)) sx hbfOK
                    set newId := maxEnvId s.envs + 1 with hnew
                    set s3 := (cloc.blk.lcls.filter
                        (fun v2 => !cloc.blk.nonlcls.contains v2 &&
                          !cloc.blk.gbls.contains v2)).foldl
                        (fun st v2 => bindInEnv st newId v2 .bottom) sx with hs3
                    -- key bookkeeping: s3 has the keys of s plus newId
                    have hkey3 : ∀ k, hasKey s3.envs k = (hasKey s.envs k || (k == newId)) := by
                      intro k
                      rw [hbK k, hbfK k]
                      exact hasKey_append_single s.envs newId k
                    have hkey3' : ∀ k, hasKey s.envs k = true → hasKey s3.envs k = true := by
                      intro k hk
                      rw [hkey3 k, hk]
                      rfl
                    have hnewKey : hasKey s3.envs newId = true := by
                      rw [hkey3 newId]
                      simp
                    have hparLt : parId < newId := by
                      have := maxEnvId_ge s.envs parId hparOK
                      omega
                    have hedges3 : s3.edges = s.edges := by rw [hbE, hbfE]
                    have hstack3 : s3.stack = s.stack := by rw [hbS, hbfS, hst]
                    refine ⟨?_, ?_, ?_, ?_, ?_, ?_, ?_⟩
                    · exact hkey3' 0 hI.h0
                    · intro c p hcp
                      simp only [hedges3] at hcp
                      rw [lookupKey_bindKey_lookup] at hcp
                      by_cases hc : c = newId
                      · rw [if_pos hc] at hcp
                        cases hcp
                        subst hc
                        exact ⟨hparLt, hkey3' parId hparOK, hnewKey⟩
                      · rw [if_neg hc] at hcp
                        obtain ⟨h1, h2, h3⟩ := hI.hedges c p hcp
                        exact ⟨h1, hkey3' p h2, hkey3' c h3⟩
                    · intro id hkid hid0
                      simp only [hedges3]
                      rw [hkey3 id] at hkid
                      by_cases hidn : id = newId
                      · subst hidn
                        simp [lookupKey_bindKey_self]
                      · have : hasKey s.envs id = true := by
                          cases hks : hasKey s.envs id with
                          | true => rfl
                          | false =>
                              rw [hks] at hkid
                              simp only [Bool.false_or, beq_iff_eq] at hkid
                              exact absurd hkid hidn
                        have := hI.hcomplete id this hid0
                        rw [lookupKey_bindKey_lookup, if_neg hidn]
                        exact this
                    · simp
                    · intro c2 hc2
                      simp only [hstack3] at hc2
                      rw [hst] at hc2
                      have : s.stack.getLast? = some c2 := by
                        rw [hst]
                        simpa [List.getLast?_cons_cons] using hc2
                      exact hI.hbot c2 this
                    · intro c2 hc2
                      simp only [hstack3] at hc2
                      simp only [List.mem_cons] at hc2
                      rcases hc2 with hh | hh
                      · subst hh
                        exact hnewKey
                      · exact hkey3' c2.envId (hI.hframes c2 hh)
                    · exact hbOK
            | int n => simp only [hcv] at h; exact absurd h (by simp)
            | bool b => simp only [hcv] at h; exact absurd h (by simp)
            | str st2 => simp only [hcv] at h; exact absurd h (by simp)
            | float q => simp only [hcv] at h; exact absurd h (by simp)
            | pynone => simp only [hcv] at h; exact absurd h (by simp)
            | bottom => simp only [hcv] at h; exact absurd h (by simp)

/-! ## Claim C7 — machine invariants of reachable states -/

/-- Reachability: zero or more successful `State.step` transitions from
a given start state. -/
inductive Reach (P : Pgm) (s0 : StateD) : StateD → Prop where
  | refl : Reach P s0 s0
  | tail {s s2 : StateD} : Reach P s0 s → step P s = .ok s2 → Reach P s0 s2

/-- The freshly created state (`envs = {0: {}}`, empty parent chain,
single bottom frame with `env_id = 0`) satisfies the invariant. -/
theorem initState_inv (pgm : Blk) (P : Pgm) (s0 : StateD)
    (h : createState pgm = .ok (P, s0)) : Inv s0 := by
  unfold createState at h
  cases hg : getCtfs pgm with
  | error e => rw [hg] at h; exact absurd h (by simp)
  | ok ctfs =>
      rw [hg] at h
      simp only [Except.ok.injEq, Prod.mk.injEq] at h
      obtain ⟨hP, hs⟩ := h
      subst hs
      refine ⟨rfl, ?_, ?_, by simp, ?_, ?_, ?_⟩
      · intro c p hcp
        simp [lookupKey] at hcp
      · intro id hk hne
        exfalso
        by_cases h0 : id = 0
        · exact hne h0
        · simp [hasKey, lookupKey, Ne.symm h0] at hk
      · intro c hc
        simp only [List.getLast?_singleton, Option.some.injEq] at hc
        rw [← hc]
      · intro c hc
        simp only [List.mem_singleton] at hc
        subst hc
        rfl
      · intro id env henv x v hv
        unfold lookupKey at henv
        split at henv
        · cases henv
          simp [lookupKey] at hv
        · simp [lookupKey] at henv

/-- C7: in every state reachable by any sequence of valid steps from a
freshly created state on a program of the subset, the environment store
contains key 0; the continuation stack is nonempty and its bottom frame
holds `env_id = 0`; and following parent edges from any allocated
environment yields a chain that ends at environment 0 and repeats no id
(so the parent graph is acyclic on the reachable part). -/
theorem C7_reachable_invariants (pgm : Blk) (P : Pgm) (s0 s : StateD)
    (hinit : createState pgm = .ok (P, s0)) (hr : Reach P s0 s) :
    hasKey s.envs 0 = true ∧
    s.stack ≠ [] ∧
    (∀ c, s.stack.getLast? = some c → c.envId = 0) ∧
    (∀ id, hasKey s.envs id = true →
      (getParentChain s.edges id).getLast? = some 0 ∧
      (getParentChain s.edges id).Nodup) := by
  have hInv : Inv s := by
    induction hr with
    | refl => exact initState_inv pgm P s0 hinit
    | tail hr2 hstep ih => exact step_preserves_inv ih hstep
  refine ⟨hInv.h0, hInv.hstack, hInv.hbot, ?_⟩
  intro id hk
  exact chain_ok s.edges s.envs
    (fun c p hcp => ⟨(hInv.hedges c p hcp).1, (hInv.hedges c p hcp).2.1⟩)
    hInv.hcomplete id id (Nat.le_refl id) hk

def c7src : List PyStmt :=
  [.funcDefP 1 "f" ["a"] [.returnP 2 (.name "a")],
   .assignCallP 3 "x" "f" [.const (.intL 5)]]

def c7blk : Blk := blkOrJunk (parsePgm c7src)

def c7P : Pgm := pgmOrJunk (createState c7blk)

def c7s0 : StateD := stOrJunk (createState c7blk)

def c7s1 : StateD := (step c7P c7s0).state

def c7s2 : StateD := (step c7P c7s1).state

theorem C7_witness :
    hasKey c7s2.envs 0 = true ∧
    c7s2.stack ≠ [] ∧
    (∀ c, c7s2.stack.getLast? = some c → c.envId = 0) ∧
    (∀ id, hasKey c7s2.envs id = true →
      (getParentChain c7s2.edges id).getLast? = some 0 ∧
      (getParentChain c7s2.edges id).Nodup) :=
  C7_reachable_invariants c7blk c7P c7s0 c7s2 rfl
    (Reach.tail (Reach.tail Reach.refl rfl) rfl)

end SimpliPy
